import Mathlib

/-!
Verification of the encrypted, change-tracked, hierarchical configuration
store of this repository (the `BaseConfigStore` subsystem) and of the
password generator in `src/user.ts`.

The configuration-store implementation file itself is not part of the
source tree here (only its test suite is), so the store is modelled from
the specification: each such definition carries a doc comment starting
with `Modelled from the spec:`.  The password generator is embedded
directly from `src/user.ts`.
-/

namespace ConfigStore

/-- Modelled from the spec: `ConfigContents` values — "a value is one of:
string, number, boolean, null, nested ConfigContents, or an array of such
values" (spec §3).  Objects are ordered association lists, mirroring the
insertion-ordered mapping the spec requires. -/
inductive CVal where
  | str (s : String)
  | num (n : Int)
  | bool (b : Bool)
  | null
  | obj (fields : List (String × CVal))
  | arr (elems : List CVal)

/-- Ordered association-list lookup (first binding wins). -/
def alookup {κ α : Type} [DecidableEq κ] (k : κ) : List (κ × α) → Option α
  | [] => none
  | (k2, v) :: rest => if k2 = k then some v else alookup k rest

/-- Ordered association-list insert/replace: replaces the value in place
when the key is present, appends otherwise (insertion order preserved). -/
def aset {κ α : Type} [DecidableEq κ] (k : κ) (v : α) : List (κ × α) → List (κ × α)
  | [] => [(k, v)]
  | (k2, v2) :: rest => if k2 = k then (k, v) :: rest else (k2, v2) :: aset k v rest

/-- Ordered association-list removal of the first binding for a key. -/
def aremove {κ α : Type} [DecidableEq κ] (k : κ) : List (κ × α) → List (κ × α)
  | [] => []
  | (k2, v2) :: rest => if k2 = k then rest else (k2, v2) :: aremove k rest

/-- Modelled from the spec: a `Path` is "an ordered sequence of one or more
segments, each a string (object key) or non-negative integer (array
index)" (spec §3). -/
inductive Segment where
  | key (name : String)
  | index (i : Nat)
deriving DecidableEq

/-- The name a segment exposes for masking-policy matching: the key itself,
or the decimal spelling of an array index (the "terminal segment" of
spec §3 and the glossary). -/
def segName : Segment → String
  | .key k => k
  | .index i => toString i

/-- The single-quote character (written via its code point to keep the
source free of escaped quote literals). -/
def squote : Char := Char.ofNat 39

/-- The double-quote character. -/
def dquote : Char := Char.ofNat 34

def isDigitChar (c : Char) : Bool := decide ('0' ≤ c) && decide (c ≤ '9')

def digitsToNat (l : List Char) : Nat :=
  l.foldl (fun n c => n * 10 + (c.toNat - 48)) 0

/-- Split the longest identifier prefix (characters other than `.` and `[`)
from the rest of the input. -/
def takeIdent : List Char → (List Char × List Char)
  | [] => ([], [])
  | c :: cs =>
    if c = '.' ∨ c = '[' then ([], c :: cs)
    else
      let p := takeIdent cs
      (c :: p.1, p.2)

/-- Scan up to (and consume) the next occurrence of the closing quote `q`;
`none` when the quote never closes. -/
def takeUntil (q : Char) : List Char → Option (List Char × List Char)
  | [] => none
  | c :: cs =>
    if c = q then some ([], cs)
    else (takeUntil q cs).map (fun p => (c :: p.1, p.2))

/-- An identifier chunk becomes an array index when all characters are
digits, otherwise an object key (spec §4.1: `a.0.b` addresses an index). -/
def identSeg (l : List Char) : Segment :=
  if l ≠ [] ∧ l.all isDigitChar then .index (digitsToNat l) else .key (String.mk l)

/-- Modelled from the spec: the bracketed accessor form of the path grammar
— after `[` either a single- or double-quoted literal "permitting
arbitrary characters" followed by `]`, or a digit run (array index)
followed by `]` (spec §4.1 and §9). -/
def parseBracket : List Char → Option (Segment × List Char)
  | [] => none
  | c :: cs =>
    if c = squote ∨ c = dquote then
      match takeUntil c cs with
      | none => none
      | some (content, rest) =>
        match rest with
        | ']' :: rest2 => some (.key (String.mk content), rest2)
        | _ => none
    else
      let digits := (c :: cs).takeWhile isDigitChar
      if digits = [] then none
      else
        match (c :: cs).dropWhile isDigitChar with
        | ']' :: rest2 => some (.index (digitsToNat digits), rest2)
        | _ => none

/-- Parse a single segment at the head of the input: a bracketed accessor
or a plain identifier chunk. -/
def parseSeg : List Char → Option (Segment × List Char)
  | [] => none
  | c :: cs =>
    if c = '[' then parseBracket cs
    else
      let p := takeIdent (c :: cs)
      if p.1 = [] then none else some (identSeg p.1, p.2)

/-- Modelled from the spec: the path tokenizer — parse one segment
(identifier or bracketed accessor) at the head of the input, then either
stop, continue after a `.`, or continue at a `[` accessor (spec §4.1:
"resolve(expression) -> ordered sequence of segments"; §9:
"dot-separated identifiers; bracketed, quoted literals"). -/
def parseP : Nat → List Char → Option (List Segment)
  | 0, _ => none
  | fuel + 1, cs =>
    match parseSeg cs with
    | none => none
    | some (seg, rest) =>
      match rest with
      | [] => some [seg]
      | '.' :: cs2 => (parseP fuel cs2).map (seg :: ·)
      | '[' :: cs2 => (parseP fuel ('[' :: cs2)).map (seg :: ·)
      | _ => none

/-- Modelled from the spec: `resolve(expression)` — parse a dotted or
bracketed key expression into segments; idempotent because it is a pure
function of the expression (spec §4.1). -/
def parsePath (s : String) : Option (List Segment) :=
  parseP (s.data.length + 1) s.data

/-- Modelled from the spec: an `EncryptedKeyPattern` is "either an exact
key-name string or a pattern matched against the last segment of a path
(case-insensitive substring/regex match)" (spec §3), represented as the
tagged variant of spec §9. -/
inductive KeyPattern where
  | exact (name : String)
  | pattern (sub : String)
deriving DecidableEq

def isPrefixB : List Char → List Char → Bool
  | [], _ => true
  | _ :: _, [] => false
  | a :: as, b :: bs => (a == b) && isPrefixB as bs

def containsSub (needle : List Char) : List Char → Bool
  | [] => needle.isEmpty
  | c :: cs => isPrefixB needle (c :: cs) || containsSub needle cs

/-- A single pattern evaluated against a terminal segment name: exact match
for `exact`, case-insensitive substring match for `pattern`. -/
def patMatches (k : String) : KeyPattern → Bool
  | .exact s => s == k
  | .pattern s => containsSub (s.data.map Char.toLower) (k.data.map Char.toLower)

/-- Modelled from the spec: `shouldMask(path)` — true exactly when the
terminal segment of the path matches some entry of the store's declared
pattern set (spec §4.3 and the §3 invariant). -/
def shouldMask (ps : List KeyPattern) (k : String) : Bool :=
  ps.any (patMatches k)

/-- Modelled from the spec: the Crypto Provider capability — readiness
flag plus `encrypt`/`decrypt` with the contract `decrypt(encrypt(x)) == x`
(spec §4.2). -/
structure Crypto where
  ready : Bool
  encrypt : String → String
  decrypt : String → String
  decrypt_encrypt : ∀ s, decrypt (encrypt s) = s

/-- Modelled from the spec: the error taxonomy of §7 —
`CryptoNotInitialized` and `InvalidCryptoValue`. -/
inductive ConfigError where
  | cryptoNotInitialized
  | invalidCryptoValue
deriving DecidableEq

/-- Modelled from the spec: read navigation — follows each segment and
"fails-soft (returns undefined) when reading through a missing segment"
(spec §4.1). -/
def getAtPath : CVal → List Segment → Option CVal
  | v, [] => some v
  | .obj fs, seg :: rest =>
    match alookup (segName seg) fs with
    | some v => getAtPath v rest
    | none => none
  | .arr es, .index i :: rest =>
    match es.get? i with
    | some v => getAtPath v rest
    | none => none
  | _, _ => none

/-- Array write with JS semantics: writing past the end pads the missing
slots with null. -/
def asetIdx : Nat → CVal → List CVal → List CVal
  | 0, v, [] => [v]
  | 0, v, _ :: rest => v :: rest
  | n + 1, v, [] => .null :: asetIdx n v []
  | n + 1, v, x :: rest => x :: asetIdx n v rest

/-- Modelled from the spec: write navigation — "creates an empty container
at each missing intermediate segment when writing" (spec §4.1); an
existing non-container intermediate is replaced by a fresh container. -/
def setAtPath : CVal → List Segment → CVal → CVal
  | _, [], v => v
  | root, .key k :: rest, v =>
    let fs := match root with | .obj fs => fs | _ => []
    .obj (aset k (setAtPath ((alookup k fs).getD .null) rest v) fs)
  | root, .index i :: rest, v =>
    match root with
    | .obj fs => .obj (aset (toString i) (setAtPath ((alookup (toString i) fs).getD .null) rest v) fs)
    | .arr es => .arr (asetIdx i (setAtPath ((es.get? i).getD .null) rest v) es)
    | _ => .arr (asetIdx i (setAtPath .null rest v) [])

/-- Modelled from the spec: `unsetPath` — "removes the leaf at the path
from its parent container"; unsetting an absent path is a no-op
(spec §4.5). -/
def unsetAtPath : CVal → List Segment → CVal
  | root, [] => root
  | .obj fs, [seg] => .obj (aremove (segName seg) fs)
  | .obj fs, seg :: rest =>
    match alookup (segName seg) fs with
    | some c => .obj (aset (segName seg) (unsetAtPath c rest) fs)
    | none => .obj fs
  | .arr es, [.index i] => .arr (es.set i .null)
  | .arr es, .index i :: rest =>
    match es.get? i with
    | some c => .arr (es.set i (unsetAtPath c rest))
    | none => .arr es
  | v, _ => v

mutual

/-- Modelled from the spec: recursive masking of a nested value —
"recursively walking all string leaves within it and masking each that the
policy flags, leaving non-matching leaves and non-string leaves
untouched" (spec §4.3); a flagged leaf hit before the crypto provider is
ready fails with `CryptoNotInitialized` (spec §3, §7). -/
def maskTree (c : Crypto) (ps : List KeyPattern) : CVal → Except ConfigError CVal
  | .obj fs =>
    match maskFields c ps fs with
    | .ok fs2 => .ok (.obj fs2)
    | .error e => .error e
  | .arr es =>
    match maskElems c ps es with
    | .ok es2 => .ok (.arr es2)
    | .error e => .error e
  | v => .ok v

/-- Field-by-field masking walk: each string leaf is matched by its own
key (terminal-segment-only matching, spec §9). -/
def maskFields (c : Crypto) (ps : List KeyPattern) :
    List (String × CVal) → Except ConfigError (List (String × CVal))
  | [] => .ok []
  | (k, v) :: rest =>
    match v with
    | .str s =>
      if shouldMask ps k then
        if c.ready then
          match maskFields c ps rest with
          | .ok r => .ok ((k, .str (c.encrypt s)) :: r)
          | .error e => .error e
        else .error .cryptoNotInitialized
      else
        match maskFields c ps rest with
        | .ok r => .ok ((k, .str s) :: r)
        | .error e => .error e
    | _ =>
      match maskTree c ps v with
      | .error e => .error e
      | .ok v2 =>
        match maskFields c ps rest with
        | .ok r => .ok ((k, v2) :: r)
        | .error e => .error e

/-- Masking walk over array elements (elements carry no key of their own;
recursion continues inside them). -/
def maskElems (c : Crypto) (ps : List KeyPattern) :
    List CVal → Except ConfigError (List CVal)
  | [] => .ok []
  | v :: rest =>
    match maskTree c ps v with
    | .error e => .error e
    | .ok v2 =>
      match maskElems c ps rest with
      | .ok r => .ok (v2 :: r)
      | .error e => .error e

end

mutual

/-- Modelled from the spec: the decrypting deep walk used by
`get(..., decrypt=true)` on containers — a structurally fresh copy with
every masked string leaf decrypted (spec §4.5). -/
def decTree (c : Crypto) (ps : List KeyPattern) : CVal → Except ConfigError CVal
  | .obj fs =>
    match decFields c ps fs with
    | .ok fs2 => .ok (.obj fs2)
    | .error e => .error e
  | .arr es =>
    match decElems c ps es with
    | .ok es2 => .ok (.arr es2)
    | .error e => .error e
  | v => .ok v

/-- Decrypting walk over object fields, mirroring `maskFields`. -/
def decFields (c : Crypto) (ps : List KeyPattern) :
    List (String × CVal) → Except ConfigError (List (String × CVal))
  | [] => .ok []
  | (k, v) :: rest =>
    match v with
    | .str s =>
      if shouldMask ps k then
        if c.ready then
          match decFields c ps rest with
          | .ok r => .ok ((k, .str (c.decrypt s)) :: r)
          | .error e => .error e
        else .error .cryptoNotInitialized
      else
        match decFields c ps rest with
        | .ok r => .ok ((k, .str s) :: r)
        | .error e => .error e
    | _ =>
      match decTree c ps v with
      | .error e => .error e
      | .ok v2 =>
        match decFields c ps rest with
        | .ok r => .ok ((k, v2) :: r)
        | .error e => .error e

/-- Decrypting walk over array elements. -/
def decElems (c : Crypto) (ps : List KeyPattern) :
    List CVal → Except ConfigError (List CVal)
  | [] => .ok []
  | v :: rest =>
    match decTree c ps v with
    | .error e => .error e
    | .ok v2 =>
      match decElems c ps rest with
      | .ok r => .ok (v2 :: r)
      | .error e => .error e

end

/-- Modelled from the spec: the decrypt step of `get` — a masked string
leaf is decrypted (terminal-segment matching), a container is deep-walked
with `decTree`, anything else is returned as is (spec §4.5). -/
def decryptValue (c : Crypto) (ps : List KeyPattern) (term : String) :
    CVal → Except ConfigError CVal
  | .str s =>
    if shouldMask ps term then
      if c.ready then .ok (.str (c.decrypt s)) else .error .cryptoNotInitialized
    else .ok (.str s)
  | .obj fs => decTree c ps (.obj fs)
  | .arr es => decTree c ps (.arr es)
  | v => .ok v

/-- Modelled from the spec: the Config Store state — the content tree plus
the injected Crypto Provider, the subtype's pattern set, and the Change
Tracker's `updated`/`deleted` sets (spec §2, §3). -/
structure Store where
  crypto : Crypto
  patterns : List KeyPattern
  contents : List (String × CVal)
  updated : List String
  deleted : List String

/-- A freshly constructed store: empty contents, empty change sets. -/
def mkStore (c : Crypto) (ps : List KeyPattern) : Store :=
  { crypto := c, patterns := ps, contents := [], updated := [], deleted := [] }

/-- The top-level key a path mutation is tracked under (the outermost
segment, spec §4.4). -/
def topSegName (segs : List Segment) : String :=
  segName (segs.headD (.key ""))

/-- The terminal segment name of a path (the masking-policy matching unit,
spec glossary). -/
def lastSegName (segs : List Segment) : String :=
  segName (segs.getLastD (.key ""))

/-- Modelled from the spec: `markUpdated(topLevelKey)` — adds the key to
`updated` (if absent) and removes any pending `deleted` marker, keeping
the two sets mutually exclusive (spec §3, §4.4). -/
def markUpdated (st : Store) (k : String) : Store :=
  { st with
    updated := if k ∈ st.updated then st.updated else st.updated ++ [k]
    deleted := st.deleted.filter (fun d => d != k) }

/-- Modelled from the spec: `markDeleted(topLevelKey)` — adds the key to
`deleted` (if absent) and removes any pending `updated` marker
(spec §3, §4.4). -/
def markDeleted (st : Store) (k : String) : Store :=
  { st with
    deleted := if k ∈ st.deleted then st.deleted else st.deleted ++ [k]
    updated := st.updated.filter (fun u => u != k) }

/-- Modelled from the spec: the encryption step of `set` — when the
terminal path matches the masking policy the value must be a string (else
`InvalidCryptoValue`) and crypto must be ready (else
`CryptoNotInitialized`), storing `encrypt(value)`; otherwise the value is
recursively masked leaf by leaf (spec §4.5, §7). -/
def encryptForSet (c : Crypto) (ps : List KeyPattern) (masked : Bool) (v : CVal) :
    Except ConfigError CVal :=
  if masked then
    if c.ready then
      match v with
      | .str s => .ok (.str (c.encrypt s))
      | _ => .error .invalidCryptoValue
    else .error .cryptoNotInitialized
  else maskTree c ps v

/-- Extract the top-level field list of a root value (the store root is
always an object). -/
def rootFields (root : CVal) (orig : List (String × CVal)) : List (String × CVal) :=
  match root with
  | .obj fs => fs
  | _ => orig

/-- Modelled from the spec: `set(pathExpr, value)` — resolves/creates the
path, applies the masking policy at the terminal segment, stores the
encrypted value, and marks the top-level key — plus, for a nested path,
the full path string — as updated (spec §4.5, §4.4).  A failed encryption
aborts the operation with no partial write (spec §7). -/
def Store.set (st : Store) (expr : String) (v : CVal) : Except ConfigError Store :=
  match parsePath expr with
  | none => .ok st
  | some segs =>
    match encryptForSet st.crypto st.patterns (shouldMask st.patterns (lastSegName segs)) v with
    | .error e => .error e
    | .ok v2 =>
      let fs := rootFields (setAtPath (.obj st.contents) segs v2) st.contents
      let st2 := markUpdated { st with contents := fs } (topSegName segs)
      .ok (if 2 ≤ segs.length then markUpdated st2 expr else st2)

/-- Modelled from the spec: `unset(pathExpr)` — removes the leaf at the
path and marks the corresponding top-level key as deleted, removing any
pending updated marker; idempotent (spec §4.5). -/
def Store.unset (st : Store) (expr : String) : Store :=
  match parsePath expr with
  | none => st
  | some segs =>
    let fs := rootFields (unsetAtPath (.obj st.contents) segs) st.contents
    markDeleted { st with contents := fs } (topSegName segs)

/-- The entries of a new-contents map that carry a defined value (an
explicit `undefined` in the source is modelled as `none`). -/
def definedEntries (nc : List (String × Option CVal)) : List (String × CVal) :=
  nc.filterMap (fun kv => kv.2.map (fun v => (kv.1, v)))

/-- Modelled from the spec: `setContents(newContents)` — replaces the
entire tree and recomputes the ChangeSet: every old top-level key absent
from (or explicitly undefined in) the new contents becomes `deleted`,
every key present with a defined value becomes `updated`, even when the
value is unchanged (spec §4.5). -/
def Store.setContents (st : Store) (nc : List (String × Option CVal)) : Store :=
  let defined := definedEntries nc
  let dkeys := defined.map Prod.fst
  { st with
    contents := defined
    updated := dkeys.dedup
    deleted := ((st.contents.map Prod.fst).dedup).filter (fun k => !(dkeys.contains k)) }

/-- Modelled from the spec: `clearTracking()` — resets the Change Tracker
without altering contents (spec §4.5). -/
def Store.clearTracking (st : Store) : Store :=
  { st with updated := [], deleted := [] }

/-- Modelled from the spec: `get(pathExpr, decrypt)` as a function of the
crypto provider, pattern set and content tree — resolves the path
(failing soft to `undefined`), then either returns the stored value or
its decrypted form (spec §4.5, §7). -/
def getC (c : Crypto) (ps : List KeyPattern) (contents : List (String × CVal))
    (expr : String) (dec : Bool) : Except ConfigError (Option CVal) :=
  match parsePath expr with
  | none => .ok none
  | some segs =>
    match getAtPath (.obj contents) segs with
    | none => .ok none
    | some v =>
      if dec then
        match decryptValue c ps (lastSegName segs) v with
        | .ok v2 => .ok (some v2)
        | .error e => .error e
      else .ok (some v)

/-- Reading via `get` on a store (spec §4.5). -/
def Store.get (st : Store) (expr : String) (dec : Bool) : Except ConfigError (Option CVal) :=
  getC st.crypto st.patterns st.contents expr dec

/-- The store mutations whose interaction the change tracker must survive
(spec §4.4, §4.5). -/
inductive Op where
  | set (expr : String) (v : CVal)
  | unset (expr : String)
  | setContents (nc : List (String × Option CVal))

/-- Apply one operation; a `set` that fails leaves the store untouched
(no partial write, spec §7). -/
def applyOp (st : Store) : Op → Store
  | .set e v =>
    match st.set e v with
    | .ok st2 => st2
    | .error _ => st
  | .unset e => st.unset e
  | .setContents nc => st.setContents nc

/-- Apply a sequence of operations in order. -/
def applyOps (st : Store) : List Op → Store
  | [] => st
  | op :: rest => applyOps (applyOp st op) rest

/-- The change-tracking exclusivity invariant, as an executable check:
no key is in both `updated` and `deleted` (spec §3). -/
def disjointTracking (st : Store) : Bool :=
  st.updated.all (fun k => !(st.deleted.contains k))

/-- A concrete crypto provider instance used for concrete scenarios: a
reversible marker-prefix cipher satisfying the §4.2 contract, in the
ready state. -/
def demoCrypto : Crypto where
  ready := true
  encrypt := fun s => String.mk ('!' :: s.data)
  decrypt := fun s => String.mk s.data.tail
  decrypt_encrypt := fun _ => rfl

/-- The same concrete provider before initialization (`ready = false`,
spec §3 `EncryptionState` lifecycle). -/
def demoCryptoOff : Crypto where
  ready := false
  encrypt := fun s => String.mk ('!' :: s.data)
  decrypt := fun s => String.mk s.data.tail
  decrypt_encrypt := fun _ => rfl

/-- The pattern set of the test suite's `CarConfig` subtype:
`['serialNumber', 'creditCardNumber', 'spe@cial.property', /password/i]`. -/
def carPatterns : List KeyPattern :=
  [.exact "serialNumber", .exact "creditCardNumber",
   .exact "spe@cial.property", .pattern "password"]

/-- The bracket-accessor spelling of a path: `base[qkq]` for a quote
character `q` — e.g. `owner["credit"]` (spec §4.1). -/
def accessorExpr (q : Char) (base k : String) : String :=
  String.mk (base.data ++ '[' :: q :: (k.data ++ [q, ']']))

theorem disjointTracking_iff (st : Store) :
    disjointTracking st = true ↔ ∀ k, k ∈ st.updated → k ∉ st.deleted := by
  simp [disjointTracking, List.all_eq_true, List.elem_iff, List.contains]

theorem mem_markUpdated_updated (st : Store) (k j : String) :
    j ∈ (markUpdated st k).updated ↔ j ∈ st.updated ∨ j = k := by
  by_cases h : k ∈ st.updated <;> simp [markUpdated, h]
  rintro rfl
  exact h

theorem mem_markUpdated_deleted (st : Store) (k j : String) :
    j ∈ (markUpdated st k).deleted ↔ j ∈ st.deleted ∧ j ≠ k := by
  simp [markUpdated, List.mem_filter, bne_iff_ne]

theorem mem_markDeleted_deleted (st : Store) (k j : String) :
    j ∈ (markDeleted st k).deleted ↔ j ∈ st.deleted ∨ j = k := by
  by_cases h : k ∈ st.deleted <;> simp [markDeleted, h]
  rintro rfl
  exact h

theorem mem_markDeleted_updated (st : Store) (k j : String) :
    j ∈ (markDeleted st k).updated ↔ j ∈ st.updated ∧ j ≠ k := by
  simp [markDeleted, List.mem_filter, bne_iff_ne]

theorem markUpdated_disjoint (st : Store) (k : String)
    (h : disjointTracking st = true) : disjointTracking (markUpdated st k) = true := by
  rw [disjointTracking_iff] at h ⊢
  intro j hj hjd
  rw [mem_markUpdated_deleted] at hjd
  rw [mem_markUpdated_updated] at hj
  rcases hj with hj | rfl
  · exact h j hj hjd.1
  · exact hjd.2 rfl

theorem markDeleted_disjoint (st : Store) (k : String)
    (h : disjointTracking st = true) : disjointTracking (markDeleted st k) = true := by
  rw [disjointTracking_iff] at h ⊢
  intro j hj hjd
  rw [mem_markDeleted_updated] at hj
  rw [mem_markDeleted_deleted] at hjd
  rcases hjd with hjd | rfl
  · exact h j hj.1 hjd
  · exact hj.2 rfl

/-- The defined keys of a new-contents map are exactly the keys bound to
a defined value in it. -/
theorem mem_definedEntries_keys (nc : List (String × Option CVal)) (k : String) :
    k ∈ (definedEntries nc).map Prod.fst ↔ ∃ v, (k, some v) ∈ nc := by
  rw [List.mem_map]
  constructor
  · rintro ⟨p, hp, rfl⟩
    rw [definedEntries, List.mem_filterMap] at hp
    obtain ⟨q, hq, hfq⟩ := hp
    obtain ⟨v, hqv, hfv⟩ := Option.map_eq_some'.mp hfq
    subst hfv
    obtain ⟨qk, qv⟩ := q
    simp only at hqv
    subst hqv
    exact ⟨v, hq⟩
  · rintro ⟨v, hv⟩
    refine ⟨(k, v), ?_, rfl⟩
    rw [definedEntries, List.mem_filterMap]
    exact ⟨(k, some v), hv, rfl⟩

theorem not_contains_iff {α : Type} [BEq α] [LawfulBEq α] (l : List α) (a : α) :
    (!(l.contains a)) = true ↔ a ∉ l := by
  simp [List.elem_iff, List.contains]

theorem setContents_disjoint (st : Store) (nc : List (String × Option CVal)) :
    disjointTracking (st.setContents nc) = true := by
  rw [disjointTracking_iff]
  intro j hj hjd
  simp only [Store.setContents, List.mem_dedup] at hj hjd
  rw [List.mem_filter] at hjd
  have h2 := (not_contains_iff _ _).mp hjd.2
  exact h2 hj

theorem unset_disjoint (st : Store) (expr : String)
    (h : disjointTracking st = true) : disjointTracking (st.unset expr) = true := by
  unfold Store.unset
  rcases hp : parsePath expr with _ | segs <;> simp only [hp]
  · exact h
  · exact markDeleted_disjoint _ _ h

theorem set_disjoint (st : Store) (expr : String) (v : CVal) (st2 : Store)
    (h : disjointTracking st = true) (hs : st.set expr v = .ok st2) :
    disjointTracking st2 = true := by
  unfold Store.set at hs
  rcases hp : parsePath expr with _ | segs <;> simp only [hp] at hs
  · cases hs
    exact h
  · rcases he : encryptForSet st.crypto st.patterns
        (shouldMask st.patterns (lastSegName segs)) v with e | v2 <;> simp only [he] at hs
    · cases hs
    · obtain rfl : _ = st2 := by injection hs
      split
      · exact markUpdated_disjoint _ _ (markUpdated_disjoint _ _ h)
      · exact markUpdated_disjoint _ _ h

theorem applyOp_disjoint (st : Store) (op : Op)
    (h : disjointTracking st = true) : disjointTracking (applyOp st op) = true := by
  cases op with
  | set e v =>
    rcases hs : st.set e v with e2 | st2
    · simp only [applyOp, hs]
      exact h
    · simp only [applyOp, hs]
      exact set_disjoint st e v st2 h hs
  | unset e => exact unset_disjoint st e h
  | setContents nc => exact setContents_disjoint st nc

theorem applyOps_disjoint (ops : List Op) : ∀ st : Store,
    disjointTracking st = true → disjointTracking (applyOps st ops) = true := by
  induction ops with
  | nil => exact fun st h => h
  | cons op rest ih => exact fun st h => ih (applyOp st op) (applyOp_disjoint st op h)

/--
C4: through every sequence of set/unset/setContents operations, each
top-level key lives in at most one of the ChangeSet's `updated` and
`deleted` sets; a successful `set` on a previously-deleted key moves it
to `updated`, and `unset` on a previously-updated key moves it to
`deleted`.
-/
theorem c4_tracking_exclusive :
    (∀ (st : Store) (ops : List Op), disjointTracking st = true →
      disjointTracking (applyOps st ops) = true) ∧
    (∀ (c : Crypto) (ps : List KeyPattern) (ops : List Op),
      disjointTracking (applyOps (mkStore c ps) ops) = true) ∧
    (∀ (st : Store) (p : String) (segs : List Segment) (v : CVal) (st2 : Store),
      parsePath p = some segs → topSegName segs ∈ st.deleted → st.set p v = .ok st2 →
      topSegName segs ∈ st2.updated ∧ topSegName segs ∉ st2.deleted) ∧
    (∀ (st : Store) (p : String) (segs : List Segment),
      parsePath p = some segs → topSegName segs ∈ st.updated →
      topSegName segs ∈ (st.unset p).deleted ∧ topSegName segs ∉ (st.unset p).updated) := by
  refine ⟨fun st ops h => applyOps_disjoint ops st h,
    fun c ps ops => applyOps_disjoint ops (mkStore c ps) rfl, ?_, ?_⟩
  · intro st p segs v st2 hp _ hs
    unfold Store.set at hs
    simp only [hp] at hs
    rcases he : encryptForSet st.crypto st.patterns
        (shouldMask st.patterns (lastSegName segs)) v with e | v2 <;> simp only [he] at hs
    · cases hs
    · obtain rfl : _ = st2 := by injection hs
      split
      · constructor
        · rw [mem_markUpdated_updated, mem_markUpdated_updated]
          exact Or.inl (Or.inr rfl)
        · rw [mem_markUpdated_deleted, mem_markUpdated_deleted]
          rintro ⟨⟨_, hne⟩, _⟩
          exact hne rfl
      · constructor
        · rw [mem_markUpdated_updated]
          exact Or.inr rfl
        · rw [mem_markUpdated_deleted]
          rintro ⟨_, hne⟩
          exact hne rfl
  · intro st p segs hp _
    unfold Store.unset
    simp only [hp]
    constructor
    · rw [mem_markDeleted_deleted]
      exact Or.inr rfl
    · rw [mem_markDeleted_updated]
      rintro ⟨_, hne⟩
      exact hne rfl

/-- C4 witness: the theorem's parts applied at the test suite's scenarios
(`set('1','a'); unset('1'); set('1','b')`). -/
theorem c4_tracking_exclusive_witness :
    disjointTracking (applyOps (mkStore demoCrypto [])
      [.set "1" (.str "a"), .unset "1", .set "1" (.str "b")]) = true ∧
    ("1" ∈ (applyOps (mkStore demoCrypto []) [.set "1" (.str "a"), .unset "1"]).deleted →
      ∀ st2, (applyOps (mkStore demoCrypto []) [.set "1" (.str "a"), .unset "1"]).set "1" (.str "b")
          = .ok st2 → "1" ∈ st2.updated ∧ "1" ∉ st2.deleted) ∧
    ("1" ∈ (applyOp (mkStore demoCrypto []) (.set "1" (.str "a"))).updated →
      "1" ∈ ((applyOp (mkStore demoCrypto []) (.set "1" (.str "a"))).unset "1").deleted ∧
      "1" ∉ ((applyOp (mkStore demoCrypto []) (.set "1" (.str "a"))).unset "1").updated) := by
  refine ⟨c4_tracking_exclusive.2.1 demoCrypto [] _, ?_, ?_⟩
  · intro hd st2 hs
    exact c4_tracking_exclusive.2.2.1 _ "1" [.index 1] (.str "b") st2 rfl hd hs
  · intro hu
    exact c4_tracking_exclusive.2.2.2 _ "1" [.index 1] rfl hu

/--
C5: `setContents(newContents)` replaces the whole tree and recomputes the
ChangeSet: `deleted` holds exactly the old top-level keys without a
defined value in the new contents, and `updated` holds exactly the keys
bound to a defined value in the new contents (even when unchanged).
-/
theorem c5_setContents_recompute (st : Store) (nc : List (String × Option CVal)) :
    (st.setContents nc).contents = definedEntries nc ∧
    ∀ k : String,
      (k ∈ (st.setContents nc).updated ↔ ∃ v, (k, some v) ∈ nc) ∧
      (k ∈ (st.setContents nc).deleted ↔
        k ∈ st.contents.map Prod.fst ∧ ¬ ∃ v, (k, some v) ∈ nc) := by
  refine ⟨rfl, fun k => ⟨?_, ?_⟩⟩
  · show k ∈ ((definedEntries nc).map Prod.fst).dedup ↔ _
    rw [List.mem_dedup]
    exact mem_definedEntries_keys nc k
  · show k ∈ ((st.contents.map Prod.fst).dedup).filter _ ↔ _
    rw [List.mem_filter, List.mem_dedup]
    constructor
    · rintro ⟨hold, hpred⟩
      refine ⟨hold, fun hnew => ?_⟩
      rw [← mem_definedEntries_keys] at hnew
      exact (not_contains_iff _ _).mp hpred hnew
    · rintro ⟨hold, hnew⟩
      refine ⟨hold, ?_⟩
      rw [← mem_definedEntries_keys] at hnew
      exact (not_contains_iff _ _).mpr hnew

/--
C7: a `set` on a nested path (two or more segments) marks both the
outermost top-level key and the full path string in `updated`; in
particular, after `set('1', {a}) ; set('1.a', _)` the tracked entries are
exactly `['1', '1.a']`.
-/
theorem c7_nested_set_marks_both :
    (∀ (st : Store) (p : String) (segs : List Segment) (v : CVal) (st2 : Store),
      parsePath p = some segs → 2 ≤ segs.length → st.set p v = .ok st2 →
      topSegName segs ∈ st2.updated ∧ p ∈ st2.updated) ∧
    (applyOps (mkStore demoCrypto [])
      [.set "1" (.obj [("a", .str "a")]), .set "1.a" (.str "b")]).updated = ["1", "1.a"] := by
  constructor
  · intro st p segs v st2 hp hlen hs
    unfold Store.set at hs
    simp only [hp] at hs
    rcases he : encryptForSet st.crypto st.patterns
        (shouldMask st.patterns (lastSegName segs)) v with e | v2 <;> simp only [he] at hs
    · cases hs
    · obtain rfl : _ = st2 := by injection hs
      rw [if_pos hlen]
      constructor
      · rw [mem_markUpdated_updated, mem_markUpdated_updated]
        exact Or.inl (Or.inr rfl)
      · rw [mem_markUpdated_updated]
        exact Or.inr rfl
  · rfl

/-- C7 witness: the general part applied at the `set('1.a', 'b')`
scenario. -/
theorem c7_nested_set_marks_both_witness :
    ∀ st2, (applyOp (mkStore demoCrypto []) (.set "1" (.obj [("a", .str "a")]))).set
        "1.a" (.str "b") = .ok st2 →
      topSegName [.index 1, .key "a"] ∈ st2.updated ∧ "1.a" ∈ st2.updated := by
  intro st2 hs
  exact c7_nested_set_marks_both.1 _ "1.a" [.index 1, .key "a"] (.str "b") st2 rfl
    (by simp) hs

theorem takeIdent_stop (cs ds : List Char) (h : ∀ c ∈ cs, ¬(c = '.' ∨ c = '[')) :
    takeIdent (cs ++ '[' :: ds) = (cs, '[' :: ds) := by
  induction cs with
  | nil => simp [takeIdent]
  | cons c cs ih =>
    have hc := h c (by simp)
    simp [takeIdent, hc, ih (fun x hx => h x (by simp [hx]))]

theorem takeUntil_clean (q : Char) (ks rest : List Char) (h : ∀ c ∈ ks, c ≠ q) :
    takeUntil q (ks ++ q :: rest) = some (ks, rest) := by
  induction ks with
  | nil => simp [takeUntil]
  | cons c ks ih =>
    have hc := h c (by simp)
    simp [takeUntil, hc, ih (fun x hx => h x (by simp [hx]))]

theorem parseBracket_quoted (q : Char) (hq : q = squote ∨ q = dquote) (ks : List Char)
    (hk : ∀ c ∈ ks, c ≠ q) :
    parseBracket (q :: (ks ++ [q, ']'])) = some (.key (String.mk ks), []) := by
  have ht : takeUntil q (ks ++ q :: [']']) = some (ks, [']']) := takeUntil_clean q ks [']'] hk
  simp [parseBracket, hq, ht]

/-- Parsing a well-formed quoted bracket accessor: identifier base, then
the quoted key — independent of which quote character is used. -/
theorem accessor_parse (q : Char) (hq : q = squote ∨ q = dquote) (base k : List Char)
    (hb0 : base ≠ []) (hb : ∀ c ∈ base, ¬(c = '.' ∨ c = '[')) (hk : ∀ c ∈ k, c ≠ q)
    (fuel : Nat) :
    parseP (fuel + 2) (base ++ '[' :: q :: (k ++ [q, ']']))
      = some [identSeg base, .key (String.mk k)] := by
  obtain ⟨b, bs, rfl⟩ : ∃ b bs, base = b :: bs := by
    cases base with
    | nil => exact absurd rfl hb0
    | cons b bs => exact ⟨b, bs, rfl⟩
  have hb1 : ¬(b = '[') := fun hx => (hb b (by simp)) (Or.inr hx)
  have hident : takeIdent ((b :: bs) ++ '[' :: (q :: (k ++ [q, ']'])))
      = (b :: bs, '[' :: (q :: (k ++ [q, ']']))) := takeIdent_stop _ _ hb
  have hbr := parseBracket_quoted q hq k hk
  show parseP (fuel + 1 + 1) _ = _
  unfold parseP
  simp only [parseSeg, List.cons_append, hb1, if_false]
  rw [List.cons_append] at hident
  simp only [hident]
  simp only [if_neg (by simp : ¬(b :: bs = []))]
  unfold parseP
  simp [parseSeg, hbr]

/-- Both quoted spellings of the same accessor parse to the same segment
sequence. -/
theorem accessor_parsePath (q : Char) (hq : q = squote ∨ q = dquote) (base k : String)
    (hb0 : base.data ≠ []) (hb : ∀ c ∈ base.data, ¬(c = '.' ∨ c = '['))
    (hk : ∀ c ∈ k.data, c ≠ q) :
    parsePath (accessorExpr q base k) = some [identSeg base.data, .key k] := by
  show parseP ((base.data ++ '[' :: q :: (k.data ++ [q, ']'])).length + 1) _ = _
  have hlen : (base.data ++ '[' :: q :: (k.data ++ [q, ']'])).length + 1
      = (base.data.length + k.data.length + 3) + 2 := by
    simp
    omega
  rw [hlen]
  exact accessor_parse q hq base.data k.data hb0 hb hk _

/-- A successful `set` determines the new contents purely from the parsed
segments (not from the expression's spelling), and keeps crypto and
patterns. -/
theorem set_ok_inverted (st : Store) (p : String) (segs : List Segment) (v : CVal)
    (st2 : Store) (hp : parsePath p = some segs) (hs : st.set p v = .ok st2) :
    ∃ v2, encryptForSet st.crypto st.patterns (shouldMask st.patterns (lastSegName segs)) v
        = .ok v2 ∧
      st2.contents = rootFields (setAtPath (.obj st.contents) segs v2) st.contents ∧
      st2.crypto = st.crypto ∧ st2.patterns = st.patterns := by
  unfold Store.set at hs
  simp only [hp] at hs
  rcases he : encryptForSet st.crypto st.patterns
      (shouldMask st.patterns (lastSegName segs)) v with e | v2 <;> simp only [he] at hs
  · cases hs
  · obtain rfl : _ = st2 := by injection hs
    refine ⟨v2, rfl, ?_, ?_, ?_⟩ <;> split <;> rfl

/-- Reading only looks at the parse of the expression, never its spelling. -/
theorem getC_congr (c : Crypto) (ps : List KeyPattern) (fs : List (String × CVal))
    (e1 e2 : String) (d : Bool) (h : parsePath e1 = parsePath e2) :
    getC c ps fs e1 d = getC c ps fs e2 d := by
  unfold getC
  rw [h]

/--
C8 (amended): for every key name k that contains neither quote character,
the single-quoted and double-quoted bracket accessor spellings for k
resolve to the same segment sequence and address the same storage
location — after a successful `set` through either spelling, `get`
through either spelling returns equal results (this includes keys
containing dots and other special characters; a key containing a quote
character breaks the quoting grammar and is excluded).
-/
theorem c8_quote_spellings_equivalent (base k : String) (hb0 : base.data ≠ [])
    (hb : ∀ c ∈ base.data, ¬(c = '.' ∨ c = '['))
    (hk : ∀ c ∈ k.data, c ≠ squote ∧ c ≠ dquote) :
    parsePath (accessorExpr squote base k) = parsePath (accessorExpr dquote base k) ∧
    parsePath (accessorExpr squote base k) = some [identSeg base.data, .key k] ∧
    ∀ (st : Store) (v : CVal) (st1 st2 : Store) (d : Bool),
      st.set (accessorExpr squote base k) v = .ok st1 →
      st.set (accessorExpr dquote base k) v = .ok st2 →
      st1.contents = st2.contents ∧
      st1.get (accessorExpr squote base k) d = st2.get (accessorExpr dquote base k) d ∧
      st1.get (accessorExpr dquote base k) d = st1.get (accessorExpr squote base k) d := by
  have hp1 := accessor_parsePath squote (Or.inl rfl) base k hb0 hb
    (fun c hc => (hk c hc).1)
  have hp2 := accessor_parsePath dquote (Or.inr rfl) base k hb0 hb
    (fun c hc => (hk c hc).2)
  refine ⟨hp1.trans hp2.symm, hp1, ?_⟩
  intro st v st1 st2 d hs1 hs2
  obtain ⟨v2, he1, hc1, hcr1, hps1⟩ := set_ok_inverted st _ _ v st1 hp1 hs1
  obtain ⟨v3, he2, hc2, hcr2, hps2⟩ := set_ok_inverted st _ _ v st2 hp2 hs2
  have hv23 : v2 = v3 := by
    rw [he1] at he2
    injection he2
  have hcc : st1.contents = st2.contents := by rw [hc1, hc2, hv23]
  have g1 : st1.get (accessorExpr squote base k) d
      = getC st.crypto st.patterns st1.contents (accessorExpr squote base k) d := by
    show getC st1.crypto st1.patterns st1.contents (accessorExpr squote base k) d = _
    rw [hcr1, hps1]
  have g2 : st2.get (accessorExpr dquote base k) d
      = getC st.crypto st.patterns st2.contents (accessorExpr dquote base k) d := by
    show getC st2.crypto st2.patterns st2.contents (accessorExpr dquote base k) d = _
    rw [hcr2, hps2]
  have g3 : st1.get (accessorExpr dquote base k) d
      = getC st.crypto st.patterns st1.contents (accessorExpr dquote base k) d := by
    show getC st1.crypto st1.patterns st1.contents (accessorExpr dquote base k) d = _
    rw [hcr1, hps1]
  refine ⟨hcc, ?_, ?_⟩
  · rw [g1, g2, hcc]
    exact getC_congr _ _ _ _ _ d (hp1.trans hp2.symm)
  · rw [g1, g3]
    exact getC_congr _ _ _ _ _ d (hp2.trans hp1.symm)

/-- C8 witness for the amended claim: the `owner['credit']` versus
`owner["credit"]` scenario of the test suite. -/
theorem c8_quote_spellings_equivalent_witness :
    parsePath (accessorExpr squote "owner" "credit")
      = parsePath (accessorExpr dquote "owner" "credit") ∧
    parsePath (accessorExpr squote "owner" "credit")
      = some [identSeg "owner".data, .key "credit"] ∧
    ∀ (st : Store) (v : CVal) (st1 st2 : Store) (d : Bool),
      st.set (accessorExpr squote "owner" "credit") v = .ok st1 →
      st.set (accessorExpr dquote "owner" "credit") v = .ok st2 →
      st1.contents = st2.contents ∧
      st1.get (accessorExpr squote "owner" "credit") d
        = st2.get (accessorExpr dquote "owner" "credit") d ∧
      st1.get (accessorExpr dquote "owner" "credit") d
        = st1.get (accessorExpr squote "owner" "credit") d :=
  c8_quote_spellings_equivalent "owner" "credit" (by decide) (by decide) (by decide)

/-- The single-quote character as a one-character key name. -/
def apos : String := String.mk [squote]

/--
C8 counterexample to the claim as stated: for the key name k = `'` (a
single quote), the two quoted spellings do not resolve to the same
segment sequence — the single-quoted spelling does not parse at all — and
after setting through the double-quoted spelling, `get` through the two
spellings returns different results.
-/
theorem c8_counterexample :
    parsePath (accessorExpr squote "owner" apos) = none ∧
    parsePath (accessorExpr dquote "owner" apos) = some [.key "owner", .key apos] ∧
    (applyOp (mkStore demoCrypto []) (.set (accessorExpr dquote "owner" apos) (.str "x"))).get
      (accessorExpr squote "owner" apos) false = .ok none ∧
    (applyOp (mkStore demoCrypto []) (.set (accessorExpr dquote "owner" apos) (.str "x"))).get
      (accessorExpr dquote "owner" apos) false = .ok (some (.str "x")) ∧
    (Except.ok none : Except ConfigError (Option CVal)) ≠ .ok (some (.str "x")) := by
  refine ⟨rfl, rfl, rfl, rfl, ?_⟩
  intro h
  injection h with h2
  cases h2

end ConfigStore

namespace HeapModel

/-!
A reference-semantics refinement of the store used to state the
non-aliasing property of `get(path, decrypt=true)` (spec §4.5, §9: "Live
object references returned from get()" versus "an explicit
deep-clone-and-decrypt path").  Objects and arrays live in an explicit
heap of numbered cells; `get` without decryption returns a live
reference, `get` with decryption materializes a fresh deep clone.
-/

open ConfigStore

/-- A primitive (non-reference) runtime value. -/
inductive JPrim where
  | str (s : String)
  | num (n : Int)
  | bool (b : Bool)
  | null

/-- A runtime value: a primitive or a reference to a heap cell. -/
inductive JVal where
  | prim (p : JPrim)
  | ref (a : Nat)

/-- A heap cell: an object (ordered field map) or an array. -/
inductive HEntry where
  | hobj (fields : List (String × JVal))
  | harr (elems : List JVal)

/-- The heap: numbered cells plus the next fresh address. -/
structure Heap where
  cells : List (Nat × HEntry)
  next : Nat

def Heap.lookup (h : Heap) (a : Nat) : Option HEntry :=
  alookup a h.cells

/-- Allocate a fresh cell. -/
def Heap.alloc (h : Heap) (e : HEntry) : Nat × Heap :=
  (h.next, { cells := (h.next, e) :: h.cells, next := h.next + 1 })

/-- Mutate one field of an object cell (the store-side effect of a caller
writing through a reference returned by `get`). -/
def Heap.writeField (h : Heap) (a : Nat) (f : String) (w : JVal) : Heap :=
  match h.lookup a with
  | some (.hobj fs) => { h with cells := aset a (.hobj (aset f w fs)) h.cells }
  | _ => h

def primToC : JPrim → CVal
  | .str s => .str s
  | .num n => .num n
  | .bool b => .bool b
  | .null => .null

/-- Apply a partial reading function to each field value of an object
cell, failing when any field fails. -/
def mapFieldsO (f : JVal → Option CVal) : List (String × JVal) → Option (List (String × CVal))
  | [] => some []
  | (k, v) :: rest =>
    match f v with
    | some c =>
      match mapFieldsO f rest with
      | some r => some ((k, c) :: r)
      | none => none
    | none => none

/-- Apply a partial reading function to each element of an array cell. -/
def mapElemsO (f : JVal → Option CVal) : List JVal → Option (List CVal)
  | [] => some []
  | v :: rest =>
    match f v with
    | some c =>
      match mapElemsO f rest with
      | some r => some (c :: r)
      | none => none
    | none => none

/-- Read the pure content tree reachable from a value; fuel bounds the
reference-chasing depth (a cyclic heap yields `none`). -/
def purify : Nat → Heap → JVal → Option CVal
  | _, _, .prim p => some (primToC p)
  | 0, _, .ref _ => none
  | fuel + 1, h, .ref a =>
    match h.lookup a with
    | some (.hobj fs) =>
      match mapFieldsO (purify fuel h) fs with
      | some fs2 => some (.obj fs2)
      | none => none
    | some (.harr es) =>
      match mapElemsO (purify fuel h) es with
      | some es2 => some (.arr es2)
      | none => none
    | none => none

mutual

/-- Materialize a pure content tree as freshly allocated heap cells — the
deep clone of spec §4.5 ("returns a deep clone ... never the live
object"). -/
def allocate (h : Heap) : CVal → JVal × Heap
  | .str s => (.prim (.str s), h)
  | .num n => (.prim (.num n), h)
  | .bool b => (.prim (.bool b), h)
  | .null => (.prim .null, h)
  | .obj fs =>
    let p := allocateFields h fs
    let q := p.2.alloc (.hobj p.1)
    (.ref q.1, q.2)
  | .arr es =>
    let p := allocateElems h es
    let q := p.2.alloc (.harr p.1)
    (.ref q.1, q.2)

/-- Allocate the (already decrypted) fields of an object clone. -/
def allocateFields (h : Heap) : List (String × CVal) → List (String × JVal) × Heap
  | [] => ([], h)
  | (k, v) :: rest =>
    let p := allocate h v
    let q := allocateFields p.2 rest
    ((k, p.1) :: q.1, q.2)

/-- Allocate the elements of an array clone. -/
def allocateElems (h : Heap) : List CVal → List JVal × Heap
  | [] => ([], h)
  | v :: rest =>
    let p := allocate h v
    let q := allocateElems p.2 rest
    (p.1 :: q.1, q.2)

end

/-- A reference is either primitive or points below the bound `n`. -/
def valBelow (n : Nat) : JVal → Prop
  | .prim _ => True
  | .ref a => a < n

/-- Every reference stored in a field list points below `n`. -/
def fieldsBelow (n : Nat) (fs : List (String × JVal)) : Prop :=
  ∀ kv, kv ∈ fs → valBelow n kv.2

/-- Every reference stored in an element list points below `n`. -/
def elemsBelow (n : Nat) (es : List JVal) : Prop :=
  ∀ v, v ∈ es → valBelow n v

def entryBelow (n : Nat) : HEntry → Prop
  | .hobj fs => fieldsBelow n fs
  | .harr es => elemsBelow n es

/-- Heap well-formedness: every live cell sits below the fresh-address
bound and only references addresses below it. -/
def heapWF (h : Heap) : Prop :=
  ∀ a e, h.lookup a = some e → a < h.next ∧ entryBelow h.next e

mutual

/-- Reference depth of a pure tree: enough purification fuel to read a
freshly materialized copy of it back. -/
def cdepth : CVal → Nat
  | .obj fs => cdepthF fs + 1
  | .arr es => cdepthE es + 1
  | _ => 1

/-- Depth over object fields. -/
def cdepthF : List (String × CVal) → Nat
  | [] => 0
  | (_, v) :: rest => max (cdepth v) (cdepthF rest)

/-- Depth over array elements. -/
def cdepthE : List CVal → Nat
  | [] => 0
  | v :: rest => max (cdepth v) (cdepthE rest)

end

/-- The heap-level store: crypto, patterns, top-level fields (which may
reference heap cells), and the heap itself. -/
structure HStore where
  crypto : Crypto
  patterns : List KeyPattern
  contents : List (String × JVal)
  heap : Heap

/-- Live navigation along a key path through heap references; fails soft
on a missing segment, like the pure model's read navigation. -/
def getAtPathH (h : Heap) : List (String × JVal) → List String → Option JVal
  | _, [] => none
  | fs, [k] => alookup k fs
  | fs, k :: rest =>
    match alookup k fs with
    | some (.ref a) =>
      match h.lookup a with
      | some (.hobj fs2) => getAtPathH h fs2 rest
      | _ => none
    | _ => none

/-- Modelled from the spec: `get(path)` without decryption returns the
live stored value — for containers, the very reference held by the store
(spec §4.5). -/
def HStore.getRaw (S : HStore) (p : List String) : Option JVal :=
  getAtPathH S.heap S.contents p

/-- The purified (value-level) result of a raw `get`. -/
def HStore.getPure (S : HStore) (p : List String) (fuel : Nat) : Option CVal :=
  match S.getRaw p with
  | some v => purify fuel S.heap v
  | none => none

/-- Modelled from the spec: the pure value that `get(path, decrypt=true)`
exposes — the stored tree with every masked leaf decrypted (spec §4.5). -/
def HStore.getDecPure (S : HStore) (p : List String) (fuel : Nat) : Option CVal :=
  match S.getPure p fuel with
  | none => none
  | some pv =>
    match decryptValue S.crypto S.patterns (p.getLastD "") pv with
    | .ok dv => some dv
    | .error _ => none

/-- Modelled from the spec: `get(path, decrypt=true)` — resolve the live
value, decrypt a deep copy of it, and materialize that copy in freshly
allocated cells, never returning the live object (spec §4.5). -/
def HStore.getDec (S : HStore) (p : List String) (fuel : Nat) : Option (JVal × Heap) :=
  match S.getDecPure p fuel with
  | some dv => some (allocate S.heap dv)
  | none => none

end HeapModel

namespace UserModel

/-- The `CHARACTERS.LOWER` set of `src/user.ts`. -/
def LOWER : List Char := "abcdefghijklmnopqrstuvwxyz".data

/-- The `CHARACTERS.UPPER` set of `src/user.ts`. -/
def UPPER : List Char := "ABCDEFGHIJKLMNOPQRSTUVWXYZ".data

/-- The `CHARACTERS.NUMBERS` set of `src/user.ts`. -/
def NUMBERS : List Char := "1234567890".data

/-- The `CHARACTERS.SYMBOLS` set of `src/user.ts`. -/
def SYMBOLS : List Char :=
  ['!', '@', '#', '$', '%', '^', '&', '*', '(', ')', '_', '[', ']', '|', '-']

/-- One row of the `PASSWORD_COMPLEXITY` table: which character classes
the level requires. -/
structure Complexity where
  lower : Bool
  upper : Bool
  numbers : Bool
  symbols : Bool

/-- The `PASSWORD_COMPLEXITY` table of `src/user.ts` (levels 0–5; any
other level is undefined). -/
def PASSWORD_COMPLEXITY : Nat → Option Complexity
  | 0 => some { lower := true, upper := false, numbers := false, symbols := false }
  | 1 => some { lower := true, upper := false, numbers := true, symbols := false }
  | 2 => some { lower := true, upper := false, numbers := false, symbols := true }
  | 3 => some { lower := true, upper := true, numbers := true, symbols := false }
  | 4 => some { lower := true, upper := false, numbers := true, symbols := true }
  | 5 => some { lower := true, upper := true, numbers := true, symbols := true }
  | _ => none

/-- The `PasswordConditions` interface of `src/user.ts`. -/
structure PasswordConditions where
  length : Nat
  complexity : Nat

/-- The two error kinds `generatePasswordUtf8` can raise. -/
inductive UserError where
  | complexityOutOfBound
  | lengthOutOfBound

/-- The character sets pushed for a complexity row, in the source's
iteration order `['SYMBOLS', 'NUMBERS', 'UPPER', 'LOWER']`. -/
def requiredSets (c : Complexity) : List (List Char) :=
  (if c.symbols then [SYMBOLS] else []) ++
  (if c.numbers then [NUMBERS] else []) ++
  (if c.upper then [UPPER] else []) ++
  (if c.lower then [LOWER] else [])

/-- One random pick per required set: `CHARACTERS[charSet][rand(...)]`,
with the random draw modelled as an arbitrary supply `rng` of naturals
(`rand` always yields an index below the set size, so the index is taken
modulo the size). -/
def pickChars (rng : Nat → Nat) : Nat → List (List Char) → List Char
  | _, [] => []
  | i, cs :: rest => cs.getD (rng i % cs.length) 'a' :: pickChars rng (i + 1) rest

/-- The function `User.generatePasswordUtf8` of `src/user.ts`: validates the complexity
level and the length bounds, pushes one random character per required
class, pads with random lower-case characters up to the requested length,
and shuffles; the shuffle (`sort` under a random comparator) is modelled
as an arbitrary function, constrained to a permutation in the theorems. -/
def generatePasswordUtf8 (cond : PasswordConditions) (rng : Nat → Nat)
    (shuffle : List Char → List Char) : Except UserError (List Char) :=
  match PASSWORD_COMPLEXITY cond.complexity with
  | none => .error .complexityOutOfBound
  | some cx =>
    if cond.length < 8 ∨ 1000 < cond.length then .error .lengthOutOfBound
    else
      let req := pickChars rng 0 (requiredSets cx)
      let fill := (List.range (cond.length - req.length)).map
        (fun i => LOWER.getD (rng (req.length + i) % LOWER.length) 'a')
      .ok (shuffle (req ++ fill))

end UserModel

namespace UserModel

theorem getD_mem (l : List Char) (n : Nat) (d : Char) (h : n < l.length) :
    l.getD n d ∈ l := by
  rw [List.getD_eq_getElem l d h]
  exact List.getElem_mem h

theorem pickChars_length (rng : Nat → Nat) :
    ∀ (sets : List (List Char)) (i : Nat), (pickChars rng i sets).length = sets.length := by
  intro sets
  induction sets with
  | nil => intro i; rfl
  | cons cs rest ih => intro i; simp [pickChars, ih]

/-- Every character set a complexity row requires is one of the four
`CHARACTERS` sets. -/
theorem requiredSets_cases (cx : Complexity) (cs : List Char) (h : cs ∈ requiredSets cx) :
    cs = SYMBOLS ∨ cs = NUMBERS ∨ cs = UPPER ∨ cs = LOWER := by
  obtain ⟨l, u, n, sy⟩ := cx
  cases l <;> cases u <;> cases n <;> cases sy <;> simp [requiredSets] at h <;> tauto

theorem requiredSets_length_le (cx : Complexity) : (requiredSets cx).length ≤ 4 := by
  obtain ⟨l, u, n, sy⟩ := cx
  cases l <;> cases u <;> cases n <;> cases sy <;> simp [requiredSets]

theorem requiredSets_nonempty (cx : Complexity) (cs : List Char)
    (h : cs ∈ requiredSets cx) : 0 < cs.length := by
  rcases requiredSets_cases cx cs h with rfl | rfl | rfl | rfl <;> decide

/-- The pushed prefix of the password contains, for each required set, a
character drawn from that set. -/
theorem pickChars_covers (rng : Nat → Nat) (cx : Complexity) :
    ∀ (sets : List (List Char)) (i : Nat) (cs : List Char), cs ∈ sets →
      (∀ cs2 ∈ sets, cs2 ∈ requiredSets cx) →
      ∃ ch ∈ pickChars rng i sets, ch ∈ cs := by
  intro sets
  induction sets with
  | nil => intro i cs h; cases h
  | cons cs2 rest ih =>
    intro i cs h hsub
    rcases List.mem_cons.mp h with rfl | htail
    · refine ⟨cs.getD (rng i % cs.length) 'a', List.mem_cons_self _ _, ?_⟩
      exact getD_mem cs _ 'a'
        (Nat.mod_lt _ (requiredSets_nonempty cx cs (hsub cs (List.mem_cons_self _ _))))
    · obtain ⟨ch, hch, hchcs⟩ := ih (i + 1) cs htail
        (fun cs3 h3 => hsub cs3 (List.mem_cons_of_mem _ h3))
      exact ⟨ch, List.mem_cons_of_mem _ hch, hchcs⟩

/-- Complexity levels above 5 are undefined. -/
theorem passwordComplexity_none (n : Nat) (h : 5 < n) : PASSWORD_COMPLEXITY n = none := by
  obtain ⟨m, rfl⟩ : ∃ m, n = m + 6 := ⟨n - 6, by omega⟩
  rfl

/--
C10: `User.generatePasswordUtf8` — for a defined complexity level (0–5)
and a length within [8, 1000], the generated password has exactly
`length` characters and contains at least one character from every
character class the level requires, for every outcome of the random draws
and of the shuffle; an undefined complexity level raises
`complexityOutOfBound`, and (for a defined level) a length below 8 or
above 1000 raises `lengthOutOfBound`.
-/
theorem c10_generatePasswordUtf8_spec :
    (∀ (cond : PasswordConditions) (rng : Nat → Nat) (shuffle : List Char → List Char),
      PASSWORD_COMPLEXITY cond.complexity = none →
      generatePasswordUtf8 cond rng shuffle = .error .complexityOutOfBound) ∧
    (∀ (cond : PasswordConditions), 5 < cond.complexity →
      PASSWORD_COMPLEXITY cond.complexity = none) ∧
    (∀ (cond : PasswordConditions) (rng : Nat → Nat) (shuffle : List Char → List Char)
        (cx : Complexity), PASSWORD_COMPLEXITY cond.complexity = some cx →
      (cond.length < 8 ∨ 1000 < cond.length) →
      generatePasswordUtf8 cond rng shuffle = .error .lengthOutOfBound) ∧
    (∀ (cond : PasswordConditions) (rng : Nat → Nat) (shuffle : List Char → List Char)
        (cx : Complexity),
      PASSWORD_COMPLEXITY cond.complexity = some cx →
      8 ≤ cond.length → cond.length ≤ 1000 →
      (∀ l, (shuffle l).Perm l) →
      ∃ pw, generatePasswordUtf8 cond rng shuffle = .ok pw ∧
        pw.length = cond.length ∧
        ∀ cs ∈ requiredSets cx, ∃ ch ∈ pw, ch ∈ cs) := by
  refine ⟨?_, ?_, ?_, ?_⟩
  · intro cond rng shuffle hnone
    unfold generatePasswordUtf8
    simp only [hnone]
  · intro cond h
    exact passwordComplexity_none _ h
  · intro cond rng shuffle cx hcx hlen
    unfold generatePasswordUtf8
    simp only [hcx]
    rw [if_pos hlen]
  · intro cond rng shuffle cx hcx h8 h1000 hperm
    unfold generatePasswordUtf8
    simp only [hcx]
    rw [if_neg (by omega)]
    refine ⟨_, rfl, ?_, ?_⟩
    · rw [(hperm _).length_eq]
      have hc4 := requiredSets_length_le cx
      simp [pickChars_length]
      omega
    · intro cs hcs
      obtain ⟨ch, hch, hchcs⟩ := pickChars_covers rng cx (requiredSets cx) 0 cs hcs
        (fun cs2 h2 => h2)
      exact ⟨ch, (hperm _).mem_iff.mpr (List.mem_append_left _ hch), hchcs⟩

/-- C10 witness: the theorem applied at the default conditions
(length 13, complexity 5) with a concrete random supply and the identity
shuffle, plus the two error conditions at concrete out-of-range inputs. -/
theorem c10_generatePasswordUtf8_spec_witness :
    (PASSWORD_COMPLEXITY 7 = none ∧
      generatePasswordUtf8 { length := 13, complexity := 7 } (fun _ => 0) id
        = .error .complexityOutOfBound) ∧
    (PASSWORD_COMPLEXITY 5 = some { lower := true, upper := true, numbers := true, symbols := true } ∧
      (5 < 8 ∨ 1000 < (5 : Nat)) ∧
      generatePasswordUtf8 { length := 5, complexity := 5 } (fun _ => 0) id
        = .error .lengthOutOfBound) ∧
    ∃ pw, generatePasswordUtf8 { length := 13, complexity := 5 } (fun _ => 0) id = .ok pw ∧
      pw.length = 13 ∧
      ∀ cs ∈ requiredSets { lower := true, upper := true, numbers := true, symbols := true },
        ∃ ch ∈ pw, ch ∈ cs := by
  refine ⟨⟨rfl, ?_⟩, ⟨rfl, Or.inl (by decide), ?_⟩, ?_⟩
  · exact c10_generatePasswordUtf8_spec.1 { length := 13, complexity := 7 } (fun _ => 0) id rfl
  · exact c10_generatePasswordUtf8_spec.2.2.1 { length := 5, complexity := 5 } (fun _ => 0) id
      _ rfl (Or.inl (by decide))
  · exact c10_generatePasswordUtf8_spec.2.2.2 { length := 13, complexity := 5 } (fun _ => 0) id
      _ rfl (by decide) (by decide) (fun l => List.Perm.refl l)

end UserModel

namespace ConfigStore

theorem alookup_aset {κ α : Type} [DecidableEq κ] (k : κ) (v : α) :
    ∀ l : List (κ × α), alookup k (aset k v l) = some v := by
  intro l
  induction l with
  | nil => simp [aset, alookup]
  | cons hd tl ih =>
    obtain ⟨k2, v2⟩ := hd
    by_cases h : k2 = k <;> simp [aset, h, alookup, ih]

theorem get?_asetIdx (v : CVal) :
    ∀ (i : Nat) (es : List CVal), (asetIdx i v es)[i]? = some v := by
  intro i
  induction i with
  | zero => intro es; cases es <;> simp [asetIdx]
  | succ n ih => intro es; cases es <;> simp [asetIdx, ih]

/-- Navigating back down the exact path just written always finds the
written value (write navigation forces containers into existence). -/
theorem getAtPath_setAtPath (v : CVal) :
    ∀ (segs : List Segment) (root : CVal), getAtPath (setAtPath root segs v) segs = some v := by
  intro segs
  induction segs with
  | nil => intro root; simp [setAtPath, getAtPath]
  | cons seg rest ih =>
    intro root
    cases seg with
    | key k =>
      simp [setAtPath, getAtPath, segName, alookup_aset, ih]
    | index i =>
      cases root <;> simp [setAtPath, getAtPath, segName, alookup_aset, get?_asetIdx, ih]

/-- Writing a non-empty path into an object root yields an object root. -/
theorem setAtPath_obj_shape (fs : List (String × CVal)) (segs : List Segment) (v : CVal)
    (h : segs ≠ []) : ∃ fs2, setAtPath (.obj fs) segs v = .obj fs2 := by
  cases segs with
  | nil => exact absurd rfl h
  | cons seg rest => cases seg <;> simp [setAtPath]

/-- The parser never produces an empty segment list. -/
theorem parseP_ne_nil (fuel : Nat) (cs : List Char) (segs : List Segment)
    (h : parseP fuel cs = some segs) : segs ≠ [] := by
  cases fuel with
  | zero => simp [parseP] at h
  | succ f =>
    unfold parseP at h
    rcases hps : parseSeg cs with _ | ⟨seg, rest⟩ <;> simp only [hps] at h
    · simp at h
    · split at h
      · obtain rfl : [seg] = segs := by injection h
        simp
      · obtain ⟨tl, _, h2⟩ := Option.map_eq_some'.mp h
        subst h2
        simp
      · obtain ⟨tl, _, h2⟩ := Option.map_eq_some'.mp h
        subst h2
        simp
      · simp at h

theorem parsePath_ne_nil (p : String) (segs : List Segment)
    (h : parsePath p = some segs) : segs ≠ [] :=
  parseP_ne_nil _ _ _ h

theorem markUpdated_crypto (st : Store) (k : String) :
    (markUpdated st k).crypto = st.crypto := rfl

theorem markUpdated_patterns (st : Store) (k : String) :
    (markUpdated st k).patterns = st.patterns := rfl

theorem markUpdated_contents (st : Store) (k : String) :
    (markUpdated st k).contents = st.contents := rfl

/-- Components of a successful `set`: the resulting store keeps the crypto
provider and pattern set, and its contents are the path-written tree. -/
theorem set_ok_components (st : Store) (p : String) (segs : List Segment) (v v2 : CVal)
    (hp : parsePath p = some segs)
    (he : encryptForSet st.crypto st.patterns (shouldMask st.patterns (lastSegName segs)) v
      = .ok v2) :
    ∃ st2, st.set p v = .ok st2 ∧
      st2.crypto = st.crypto ∧ st2.patterns = st.patterns ∧
      st2.contents = rootFields (setAtPath (.obj st.contents) segs v2) st.contents := by
  refine ⟨if 2 ≤ segs.length then
      markUpdated (markUpdated
        { st with contents := rootFields (setAtPath (CVal.obj st.contents) segs v2) st.contents }
        (topSegName segs)) p
    else
      markUpdated
        { st with contents := rootFields (setAtPath (CVal.obj st.contents) segs v2) st.contents }
        (topSegName segs), ?_, ?_, ?_, ?_⟩
  · simp only [Store.set, hp, he]
  · split <;> rfl
  · split <;> rfl
  · split <;> rfl

/--
C9: for every store and every path expression, `get` with `decrypt=false`
never throws: it always returns an `ok` result, and resolves a missing
path (unparseable expression, missing intermediate or terminal segment)
to `undefined` (`ok none`) rather than raising an error.
-/
theorem c9_get_never_throws (st : Store) (p : String) :
    (∃ o, st.get p false = .ok o) ∧
    (∀ segs, parsePath p = some segs → getAtPath (.obj st.contents) segs = none →
      st.get p false = .ok none) := by
  constructor
  · show ∃ o, getC st.crypto st.patterns st.contents p false = .ok o
    unfold getC
    rcases hp : parsePath p with _ | segs <;> simp only [hp]
    · exact ⟨none, rfl⟩
    · rcases hv : getAtPath (.obj st.contents) segs with _ | v <;> simp only [hv]
      · exact ⟨none, rfl⟩
      · exact ⟨some v, by simp⟩
  · intro segs hp hv
    show getC st.crypto st.patterns st.contents p false = .ok none
    unfold getC
    simp only [hp, hv]

/-- C9 witness: the theorem applied at a concrete store and a concrete
missing path. -/
theorem c9_get_never_throws_witness :
    (∃ o, (mkStore demoCrypto carPatterns).get "owner.name" false = .ok o) ∧
    (mkStore demoCrypto carPatterns).get "owner.name" false = .ok none := by
  refine ⟨(c9_get_never_throws (mkStore demoCrypto carPatterns) "owner.name").1, ?_⟩
  exact (c9_get_never_throws (mkStore demoCrypto carPatterns) "owner.name").2
    [.key "owner", .key "name"] rfl rfl

/--
C2: on a store whose crypto provider is not ready, `set` on any path whose
terminal segment matches the masking policy fails synchronously with
`CryptoNotInitialized` — for every value, string or not — and the store is
left untouched (the plaintext is never stored).
-/
theorem c2_set_requires_crypto (st : Store) (p : String) (segs : List Segment) (v : CVal)
    (hp : parsePath p = some segs)
    (hm : shouldMask st.patterns (lastSegName segs) = true)
    (hr : st.crypto.ready = false) :
    st.set p v = .error .cryptoNotInitialized ∧ applyOp st (.set p v) = st := by
  have hset : st.set p v = .error .cryptoNotInitialized := by
    unfold Store.set
    rw [hp]
    simp [encryptForSet, hm, hr]
  exact ⟨hset, by simp [applyOp, hset]⟩

/-- C2 witness: the theorem applied at the test suite's scenario —
`CarConfig` without crypto, `set('owner.creditCardNumber', ...)`. -/
theorem c2_set_requires_crypto_witness :
    (mkStore demoCryptoOff carPatterns).set "owner.creditCardNumber" (.str "n/a")
      = .error .cryptoNotInitialized ∧
    applyOp (mkStore demoCryptoOff carPatterns)
      (.set "owner.creditCardNumber" (.str "n/a")) = mkStore demoCryptoOff carPatterns :=
  c2_set_requires_crypto (mkStore demoCryptoOff carPatterns) "owner.creditCardNumber"
    [.key "owner", .key "creditCardNumber"] (.str "n/a") rfl rfl rfl

/--
C3: on a store with crypto ready, `set` of a non-string value on a path
whose terminal segment matches the masking policy fails with
`InvalidCryptoValue`, and the store's content tree is left exactly as it
was (no partial write).
-/
theorem c3_set_rejects_nonstring (st : Store) (p : String) (segs : List Segment) (v : CVal)
    (hp : parsePath p = some segs)
    (hm : shouldMask st.patterns (lastSegName segs) = true)
    (hr : st.crypto.ready = true)
    (hv : ∀ s, v ≠ .str s) :
    st.set p v = .error .invalidCryptoValue ∧ applyOp st (.set p v) = st := by
  have hset : st.set p v = .error .invalidCryptoValue := by
    unfold Store.set
    rw [hp]
    cases v with
    | str s => exact absurd rfl (hv s)
    | _ => simp [encryptForSet, hm, hr]
  exact ⟨hset, by simp [applyOp, hset]⟩

/--
C1: round-trip — for every string `s` and path expression `p` whose
terminal segment matches the masking policy, after `set(p, s)` on a store
whose crypto provider is ready, `get(p, true)` returns exactly `s`, and
`get(p, false)` returns the stored ciphertext — a value different from
`s` whenever `s` differs from its own ciphertext.
-/
theorem c1_masked_roundtrip (st : Store) (p : String) (segs : List Segment) (s : String)
    (hp : parsePath p = some segs)
    (hm : shouldMask st.patterns (lastSegName segs) = true)
    (hr : st.crypto.ready = true) :
    ∃ st2, st.set p (.str s) = .ok st2 ∧
      st2.get p true = .ok (some (.str s)) ∧
      st2.get p false = .ok (some (.str (st.crypto.encrypt s))) ∧
      (st.crypto.encrypt s ≠ s → st2.get p false ≠ .ok (some (.str s))) := by
  have he : encryptForSet st.crypto st.patterns
      (shouldMask st.patterns (lastSegName segs)) (.str s)
      = .ok (.str (st.crypto.encrypt s)) := by
    simp [encryptForSet, hm, hr]
  obtain ⟨st2, hset, hc, hpat, hcont⟩ := set_ok_components st p segs (.str s) _ hp he
  obtain ⟨fs2, hfs2⟩ := setAtPath_obj_shape st.contents segs (.str (st.crypto.encrypt s))
    (parsePath_ne_nil p segs hp)
  have hcont2 : st2.contents = fs2 := by rw [hcont, hfs2]; rfl
  have hget : getAtPath (.obj fs2) segs = some (.str (st.crypto.encrypt s)) := by
    rw [← hfs2]
    exact getAtPath_setAtPath _ _ _
  have hgetT : st2.get p true = .ok (some (.str s)) := by
    show getC st2.crypto st2.patterns st2.contents p true = _
    rw [hc, hpat, hcont2]
    unfold getC
    simp only [hp, hget, decryptValue, hm, hr]
    simp [st.crypto.decrypt_encrypt]
  have hgetF : st2.get p false = .ok (some (.str (st.crypto.encrypt s))) := by
    show getC st2.crypto st2.patterns st2.contents p false = _
    rw [hc, hpat, hcont2]
    unfold getC
    simp only [hp, hget]
    simp
  refine ⟨st2, hset, hgetT, hgetF, ?_⟩
  intro hne hcontra
  rw [hgetF] at hcontra
  simp at hcontra
  exact hne hcontra

/-- C1 witness: the theorem applied at the test suite's scenario —
`set('serialNumber', s)` then `get` with and without decryption. -/
theorem c1_masked_roundtrip_witness :
    parsePath "serialNumber" = some [.key "serialNumber"] ∧
    shouldMask (mkStore demoCrypto carPatterns).patterns
      (lastSegName [.key "serialNumber"]) = true ∧
    (mkStore demoCrypto carPatterns).crypto.ready = true ∧
    (mkStore demoCrypto carPatterns).crypto.encrypt "ab" ≠ "ab" ∧
    ∃ st2, (mkStore demoCrypto carPatterns).set "serialNumber" (.str "ab") = .ok st2 ∧
      st2.get "serialNumber" true = .ok (some (.str "ab")) ∧
      st2.get "serialNumber" false
        = .ok (some (.str ((mkStore demoCrypto carPatterns).crypto.encrypt "ab"))) ∧
      ((mkStore demoCrypto carPatterns).crypto.encrypt "ab" ≠ "ab" →
        st2.get "serialNumber" false ≠ .ok (some (.str "ab"))) :=
  ⟨rfl, rfl, rfl, by decide,
    c1_masked_roundtrip (mkStore demoCrypto carPatterns) "serialNumber"
      [.key "serialNumber"] "ab" rfl rfl rfl⟩

/-- C3 witness: the theorem applied at the test suite's scenario —
`set('owner.creditCardNumber', 12)` on a ready store. -/
theorem c3_set_rejects_nonstring_witness :
    (mkStore demoCrypto carPatterns).set "owner.creditCardNumber" (.num 12)
      = .error .invalidCryptoValue ∧
    applyOp (mkStore demoCrypto carPatterns)
      (.set "owner.creditCardNumber" (.num 12)) = mkStore demoCrypto carPatterns :=
  c3_set_rejects_nonstring (mkStore demoCrypto carPatterns) "owner.creditCardNumber"
    [.key "owner", .key "creditCardNumber"] (.num 12) rfl rfl rfl (fun s h => by cases h)

end ConfigStore

namespace HeapModel

open ConfigStore

theorem alookup_mem {κ α : Type} [DecidableEq κ] (k : κ) (v : α) :
    ∀ l : List (κ × α), alookup k l = some v → (k, v) ∈ l := by
  intro l
  induction l with
  | nil => intro h; cases h
  | cons hd tl ih =>
    obtain ⟨k2, v2⟩ := hd
    intro h
    simp only [alookup] at h
    split at h
    · rename_i heq
      subst heq
      injection h with h2
      subst h2
      exact List.mem_cons_self _ _
    · exact List.mem_cons_of_mem _ (ih h)

theorem valBelow_mono (n m : Nat) (v : JVal) (h : valBelow n v) (hnm : n ≤ m) :
    valBelow m v := by
  cases v with
  | prim p => trivial
  | ref a => simp [valBelow] at h ⊢; omega

theorem fieldsBelow_mono (n m : Nat) (fs : List (String × JVal))
    (h : fieldsBelow n fs) (hnm : n ≤ m) : fieldsBelow m fs :=
  fun kv hkv => valBelow_mono n m kv.2 (h kv hkv) hnm

theorem elemsBelow_mono (n m : Nat) (es : List JVal)
    (h : elemsBelow n es) (hnm : n ≤ m) : elemsBelow m es :=
  fun v hv => valBelow_mono n m v (h v hv) hnm

theorem entryBelow_mono (n m : Nat) (e : HEntry) (h : entryBelow n e) (hnm : n ≤ m) :
    entryBelow m e := by
  cases e with
  | hobj fs => exact fieldsBelow_mono n m fs h hnm
  | harr es => exact elemsBelow_mono n m es h hnm

theorem lookup_alloc_self (h : Heap) (e : HEntry) :
    (h.alloc e).2.lookup h.next = some e := by
  simp [Heap.alloc, Heap.lookup, alookup]

theorem lookup_alloc_ne (h : Heap) (e : HEntry) (b : Nat) (hb : b ≠ h.next) :
    (h.alloc e).2.lookup b = h.lookup b := by
  simp [Heap.alloc, Heap.lookup, alookup, (show ¬(h.next = b) from fun hx => hb hx.symm)]

theorem alloc_next (h : Heap) (e : HEntry) : (h.alloc e).2.next = h.next + 1 := rfl

theorem alloc_fst (h : Heap) (e : HEntry) : (h.alloc e).1 = h.next := rfl

theorem alookup_aset_ne {κ α : Type} [DecidableEq κ] (a b : κ) (v : α) (hne : b ≠ a) :
    ∀ l : List (κ × α), alookup b (aset a v l) = alookup b l := by
  intro l
  induction l with
  | nil => simp [aset, alookup, Ne.symm hne]
  | cons hd tl ih =>
    obtain ⟨k2, v2⟩ := hd
    by_cases hk : k2 = a
    · subst hk
      simp [aset, alookup, Ne.symm hne]
    · by_cases hkb : k2 = b <;> simp [aset, alookup, hk, hkb, ih, hne]

theorem writeField_next (h : Heap) (a : Nat) (f : String) (w : JVal) :
    (h.writeField a f w).next = h.next := by
  unfold Heap.writeField
  split <;> rfl

theorem lookup_writeField_ne (h : Heap) (a b : Nat) (f : String) (w : JVal) (hne : b ≠ a) :
    (h.writeField a f w).lookup b = h.lookup b := by
  unfold Heap.writeField
  split
  · simp [Heap.lookup, alookup_aset_ne a b _ hne]
  · rfl

theorem mapFieldsO_congr (f g : JVal → Option CVal) :
    ∀ fs : List (String × JVal), (∀ kv ∈ fs, f kv.2 = g kv.2) →
      mapFieldsO f fs = mapFieldsO g fs := by
  intro fs
  induction fs with
  | nil => intro _; rfl
  | cons kv rest ih =>
    intro h
    obtain ⟨k, v⟩ := kv
    simp only [mapFieldsO, h (k, v) (List.mem_cons_self _ _),
      ih (fun kv2 h2 => h kv2 (List.mem_cons_of_mem _ h2))]

theorem mapElemsO_congr (f g : JVal → Option CVal) :
    ∀ es : List JVal, (∀ v ∈ es, f v = g v) → mapElemsO f es = mapElemsO g es := by
  intro es
  induction es with
  | nil => intro _; rfl
  | cons v rest ih =>
    intro h
    simp only [mapElemsO, h v (List.mem_cons_self _ _),
      ih (fun v2 h2 => h v2 (List.mem_cons_of_mem _ h2))]

/-- Purification only depends on the heap cells below a bound that closes
over the value being read. -/
theorem purify_agree : ∀ (fuel : Nat) (h1 h2 : Heap) (n : Nat) (v : JVal),
    (∀ b, b < n → h1.lookup b = h2.lookup b) →
    (∀ b e, b < n → h2.lookup b = some e → entryBelow n e) →
    valBelow n v →
    purify fuel h1 v = purify fuel h2 v := by
  intro fuel
  induction fuel with
  | zero =>
    intro h1 h2 n v _ _ _
    cases v <;> rfl
  | succ fuel ih =>
    intro h1 h2 n v hag hcl hv
    cases v with
    | prim p => rfl
    | ref a =>
      have ha : a < n := hv
      have hl : h1.lookup a = h2.lookup a := hag a ha
      rcases he : h2.lookup a with _ | e
      · simp [purify, hl, he]
      · have hcl2 := hcl a e ha he
        cases e with
        | hobj fs =>
          simp only [purify, hl, he]
          rw [mapFieldsO_congr (purify fuel h1) (purify fuel h2) fs
            (fun kv hkv => ih h1 h2 n kv.2 hag hcl (hcl2 kv hkv))]
        | harr es =>
          simp only [purify, hl, he]
          rw [mapElemsO_congr (purify fuel h1) (purify fuel h2) es
            (fun v2 hv2 => ih h1 h2 n v2 hag hcl (hcl2 v2 hv2))]

/-- Live navigation only depends on the heap cells below a bound that
closes over the store contents. -/
theorem getAtPathH_agree : ∀ (p : List String) (h1 h2 : Heap) (n : Nat)
    (fs : List (String × JVal)),
    (∀ b, b < n → h1.lookup b = h2.lookup b) →
    (∀ b e, b < n → h2.lookup b = some e → entryBelow n e) →
    fieldsBelow n fs →
    getAtPathH h1 fs p = getAtPathH h2 fs p := by
  intro p
  induction p with
  | nil => intro h1 h2 n fs _ _ _; rfl
  | cons k rest ih =>
    intro h1 h2 n fs hag hcl hfs
    cases rest with
    | nil => rfl
    | cons k2 rest2 =>
      rcases hak : alookup k fs with _ | v
      · simp [getAtPathH, hak]
      · cases v with
        | prim p2 => simp [getAtPathH, hak]
        | ref a =>
          have hv : valBelow n (.ref a) := hfs (k, .ref a) (alookup_mem k _ fs hak)
          have ha : a < n := hv
          have hl := hag a ha
          rcases he : h2.lookup a with _ | e
          · simp [getAtPathH, hak, hl, he]
          · cases e with
            | hobj fs2 =>
              simp only [getAtPathH, hak, hl, he]
              exact ih h1 h2 n fs2 hag hcl (hcl a _ ha he)
            | harr es => simp [getAtPathH, hak, hl, he]

end HeapModel

namespace HeapModel

open ConfigStore

theorem alloc_wf (h : Heap) (e : HEntry) (hwf : heapWF h) (he : entryBelow h.next e) :
    heapWF (h.alloc e).2 := by
  intro a e2 hl
  rw [alloc_next]
  by_cases hb : a = h.next
  · subst hb
    rw [lookup_alloc_self] at hl
    injection hl with hl2
    subst hl2
    exact ⟨by omega, entryBelow_mono _ _ _ he (by omega)⟩
  · rw [lookup_alloc_ne _ _ _ hb] at hl
    obtain ⟨ha, hcl⟩ := hwf a e2 hl
    exact ⟨by omega, entryBelow_mono _ _ _ hcl (by omega)⟩

mutual

/-- The allocator of decrypted clones: the heap grows, old cells are
untouched, the produced value only references the new heap, heap
well-formedness is preserved, a produced reference is fresh (at or above
the old allocation bound), and purifying the produced value — in any heap
agreeing on the allocated cells — reads the cloned tree back. -/
theorem allocate_spec : ∀ (pv : CVal) (h : Heap),
    h.next ≤ (allocate h pv).2.next ∧
    (∀ b, b < h.next → (allocate h pv).2.lookup b = h.lookup b) ∧
    valBelow (allocate h pv).2.next (allocate h pv).1 ∧
    (heapWF h → heapWF (allocate h pv).2) ∧
    (∀ b, (allocate h pv).1 = .ref b → h.next ≤ b) ∧
    (∀ (hX : Heap) (fuel : Nat), (allocate h pv).2.next ≤ hX.next →
      (∀ b, b < (allocate h pv).2.next → hX.lookup b = (allocate h pv).2.lookup b) →
      cdepth pv ≤ fuel → purify fuel hX (allocate h pv).1 = some pv)
  | .str s, h => by
    refine ⟨le_refl _, fun b _ => rfl, trivial, fun hw => hw, ?_, ?_⟩
    · intro b hb
      simp [allocate] at hb
    · intro hX fuel _ _ _
      cases fuel <;> rfl
  | .num n, h => by
    refine ⟨le_refl _, fun b _ => rfl, trivial, fun hw => hw, ?_, ?_⟩
    · intro b hb
      simp [allocate] at hb
    · intro hX fuel _ _ _
      cases fuel <;> rfl
  | .bool b, h => by
    refine ⟨le_refl _, fun b2 _ => rfl, trivial, fun hw => hw, ?_, ?_⟩
    · intro b2 hb
      simp [allocate] at hb
    · intro hX fuel _ _ _
      cases fuel <;> rfl
  | .null, h => by
    refine ⟨le_refl _, fun b _ => rfl, trivial, fun hw => hw, ?_, ?_⟩
    · intro b hb
      simp [allocate] at hb
    · intro hX fuel _ _ _
      cases fuel <;> rfl
  | .obj fs, h => by
    obtain ⟨F1, F2, F3, F4, F5⟩ := allocateFields_spec fs h
    show
      h.next ≤ ((allocateFields h fs).2.alloc (.hobj (allocateFields h fs).1)).2.next ∧
      (∀ b, b < h.next →
        ((allocateFields h fs).2.alloc (.hobj (allocateFields h fs).1)).2.lookup b
          = h.lookup b) ∧
      valBelow ((allocateFields h fs).2.alloc (.hobj (allocateFields h fs).1)).2.next
        (.ref (allocateFields h fs).2.next) ∧
      (heapWF h →
        heapWF ((allocateFields h fs).2.alloc (.hobj (allocateFields h fs).1)).2) ∧
      (∀ b, (JVal.ref (allocateFields h fs).2.next) = .ref b → h.next ≤ b) ∧
      (∀ (hX : Heap) (fuel : Nat),
        ((allocateFields h fs).2.alloc (.hobj (allocateFields h fs).1)).2.next ≤ hX.next →
        (∀ b, b < ((allocateFields h fs).2.alloc (.hobj (allocateFields h fs).1)).2.next →
          hX.lookup b
            = ((allocateFields h fs).2.alloc (.hobj (allocateFields h fs).1)).2.lookup b) →
        cdepth (.obj fs) ≤ fuel →
        purify fuel hX (.ref (allocateFields h fs).2.next) = some (.obj fs))
    refine ⟨?_, ?_, ?_, ?_, ?_, ?_⟩
    · rw [alloc_next]
      omega
    · intro b hb
      rw [lookup_alloc_ne _ _ b (by omega)]
      exact F2 b hb
    · simp [valBelow, alloc_next]
    · intro hw
      exact alloc_wf _ _ (F4 hw) F3
    · intro b hb
      injection hb with hb2
      omega
    · intro hX fuel hnx hagx hd
      rw [alloc_next] at hnx hagx
      have hd2 : cdepthF fs + 1 ≤ fuel := by simpa [cdepth] using hd
      obtain ⟨g, rfl⟩ : ∃ g, fuel = g + 1 := ⟨fuel - 1, by omega⟩
      have hlook : hX.lookup (allocateFields h fs).2.next
          = some (.hobj (allocateFields h fs).1) := by
        rw [hagx (allocateFields h fs).2.next (by omega), lookup_alloc_self]
      have hfields : mapFieldsO (purify g hX) (allocateFields h fs).1 = some fs := by
        refine F5 hX g (by omega) ?_ (by omega)
        intro b hb
        rw [hagx b (by omega), lookup_alloc_ne _ _ b (by omega)]
      simp only [purify, hlook, hfields]
  | .arr es, h => by
    obtain ⟨F1, F2, F3, F4, F5⟩ := allocateElems_spec es h
    show
      h.next ≤ ((allocateElems h es).2.alloc (.harr (allocateElems h es).1)).2.next ∧
      (∀ b, b < h.next →
        ((allocateElems h es).2.alloc (.harr (allocateElems h es).1)).2.lookup b
          = h.lookup b) ∧
      valBelow ((allocateElems h es).2.alloc (.harr (allocateElems h es).1)).2.next
        (.ref (allocateElems h es).2.next) ∧
      (heapWF h →
        heapWF ((allocateElems h es).2.alloc (.harr (allocateElems h es).1)).2) ∧
      (∀ b, (JVal.ref (allocateElems h es).2.next) = .ref b → h.next ≤ b) ∧
      (∀ (hX : Heap) (fuel : Nat),
        ((allocateElems h es).2.alloc (.harr (allocateElems h es).1)).2.next ≤ hX.next →
        (∀ b, b < ((allocateElems h es).2.alloc (.harr (allocateElems h es).1)).2.next →
          hX.lookup b
            = ((allocateElems h es).2.alloc (.harr (allocateElems h es).1)).2.lookup b) →
        cdepth (.arr es) ≤ fuel →
        purify fuel hX (.ref (allocateElems h es).2.next) = some (.arr es))
    refine ⟨?_, ?_, ?_, ?_, ?_, ?_⟩
    · rw [alloc_next]
      omega
    · intro b hb
      rw [lookup_alloc_ne _ _ b (by omega)]
      exact F2 b hb
    · simp [valBelow, alloc_next]
    · intro hw
      exact alloc_wf _ _ (F4 hw) F3
    · intro b hb
      injection hb with hb2
      omega
    · intro hX fuel hnx hagx hd
      rw [alloc_next] at hnx hagx
      have hd2 : cdepthE es + 1 ≤ fuel := by simpa [cdepth] using hd
      obtain ⟨g, rfl⟩ : ∃ g, fuel = g + 1 := ⟨fuel - 1, by omega⟩
      have hlook : hX.lookup (allocateElems h es).2.next
          = some (.harr (allocateElems h es).1) := by
        rw [hagx (allocateElems h es).2.next (by omega), lookup_alloc_self]
      have helems : mapElemsO (purify g hX) (allocateElems h es).1 = some es := by
        refine F5 hX g (by omega) ?_ (by omega)
        intro b hb
        rw [hagx b (by omega), lookup_alloc_ne _ _ b (by omega)]
      simp only [purify, hlook, helems]

/-- The field allocator: same guarantees, for a field list. -/
theorem allocateFields_spec : ∀ (fs : List (String × CVal)) (h : Heap),
    h.next ≤ (allocateFields h fs).2.next ∧
    (∀ b, b < h.next → (allocateFields h fs).2.lookup b = h.lookup b) ∧
    fieldsBelow (allocateFields h fs).2.next (allocateFields h fs).1 ∧
    (heapWF h → heapWF (allocateFields h fs).2) ∧
    (∀ (hX : Heap) (fuel : Nat), (allocateFields h fs).2.next ≤ hX.next →
      (∀ b, b < (allocateFields h fs).2.next →
        hX.lookup b = (allocateFields h fs).2.lookup b) →
      cdepthF fs ≤ fuel → mapFieldsO (purify fuel hX) (allocateFields h fs).1 = some fs)
  | [], h => by
    refine ⟨le_refl _, fun b _ => rfl, ?_, fun hw => hw, ?_⟩
    · intro kv hkv
      simp [allocateFields] at hkv
    · intro hX fuel _ _ _
      rfl
  | (k, v) :: rest, h => by
    obtain ⟨A1, A2, A3, A4, A6, A5⟩ := allocate_spec v h
    obtain ⟨F1, F2, F3, F4, F5⟩ := allocateFields_spec rest (allocate h v).2
    show
      h.next ≤ (allocateFields (allocate h v).2 rest).2.next ∧
      (∀ b, b < h.next →
        (allocateFields (allocate h v).2 rest).2.lookup b = h.lookup b) ∧
      fieldsBelow (allocateFields (allocate h v).2 rest).2.next
        ((k, (allocate h v).1) :: (allocateFields (allocate h v).2 rest).1) ∧
      (heapWF h → heapWF (allocateFields (allocate h v).2 rest).2) ∧
      (∀ (hX : Heap) (fuel : Nat),
        (allocateFields (allocate h v).2 rest).2.next ≤ hX.next →
        (∀ b, b < (allocateFields (allocate h v).2 rest).2.next →
          hX.lookup b = (allocateFields (allocate h v).2 rest).2.lookup b) →
        cdepthF ((k, v) :: rest) ≤ fuel →
        mapFieldsO (purify fuel hX)
          ((k, (allocate h v).1) :: (allocateFields (allocate h v).2 rest).1)
          = some ((k, v) :: rest))
    refine ⟨A1.trans F1, ?_, ?_, fun hw => F4 (A4 hw), ?_⟩
    · intro b hb
      rw [F2 b (lt_of_lt_of_le hb A1), A2 b hb]
    · intro kv hkv
      rcases List.mem_cons.mp hkv with rfl | htail
      · exact valBelow_mono _ _ _ A3 F1
      · exact F3 kv htail
    · intro hX fuel hnx hagx hd
      have hd2 : max (cdepth v) (cdepthF rest) ≤ fuel := by simpa [cdepthF] using hd
      have hdv : cdepth v ≤ fuel := le_trans (le_max_left _ _) hd2
      have hdr : cdepthF rest ≤ fuel := le_trans (le_max_right _ _) hd2
      have hpv : purify fuel hX (allocate h v).1 = some v := by
        refine A5 hX fuel (le_trans F1 hnx) ?_ hdv
        intro b hb
        rw [hagx b (lt_of_lt_of_le hb F1), F2 b hb]
      have hpr : mapFieldsO (purify fuel hX) (allocateFields (allocate h v).2 rest).1
          = some rest := F5 hX fuel hnx hagx hdr
      simp only [mapFieldsO, hpv, hpr]

/-- The element allocator: same guarantees, for an element list. -/
theorem allocateElems_spec : ∀ (es : List CVal) (h : Heap),
    h.next ≤ (allocateElems h es).2.next ∧
    (∀ b, b < h.next → (allocateElems h es).2.lookup b = h.lookup b) ∧
    elemsBelow (allocateElems h es).2.next (allocateElems h es).1 ∧
    (heapWF h → heapWF (allocateElems h es).2) ∧
    (∀ (hX : Heap) (fuel : Nat), (allocateElems h es).2.next ≤ hX.next →
      (∀ b, b < (allocateElems h es).2.next →
        hX.lookup b = (allocateElems h es).2.lookup b) →
      cdepthE es ≤ fuel → mapElemsO (purify fuel hX) (allocateElems h es).1 = some es)
  | [], h => by
    refine ⟨le_refl _, fun b _ => rfl, ?_, fun hw => hw, ?_⟩
    · intro v hv
      simp [allocateElems] at hv
    · intro hX fuel _ _ _
      rfl
  | v :: rest, h => by
    obtain ⟨A1, A2, A3, A4, A6, A5⟩ := allocate_spec v h
    obtain ⟨F1, F2, F3, F4, F5⟩ := allocateElems_spec rest (allocate h v).2
    show
      h.next ≤ (allocateElems (allocate h v).2 rest).2.next ∧
      (∀ b, b < h.next →
        (allocateElems (allocate h v).2 rest).2.lookup b = h.lookup b) ∧
      elemsBelow (allocateElems (allocate h v).2 rest).2.next
        ((allocate h v).1 :: (allocateElems (allocate h v).2 rest).1) ∧
      (heapWF h → heapWF (allocateElems (allocate h v).2 rest).2) ∧
      (∀ (hX : Heap) (fuel : Nat),
        (allocateElems (allocate h v).2 rest).2.next ≤ hX.next →
        (∀ b, b < (allocateElems (allocate h v).2 rest).2.next →
          hX.lookup b = (allocateElems (allocate h v).2 rest).2.lookup b) →
        cdepthE (v :: rest) ≤ fuel →
        mapElemsO (purify fuel hX)
          ((allocate h v).1 :: (allocateElems (allocate h v).2 rest).1)
          = some (v :: rest))
    refine ⟨A1.trans F1, ?_, ?_, fun hw => F4 (A4 hw), ?_⟩
    · intro b hb
      rw [F2 b (lt_of_lt_of_le hb A1), A2 b hb]
    · intro v2 hv2
      rcases List.mem_cons.mp hv2 with rfl | htail
      · exact valBelow_mono _ _ _ A3 F1
      · exact F3 v2 htail
    · intro hX fuel hnx hagx hd
      have hd2 : max (cdepth v) (cdepthE rest) ≤ fuel := by simpa [cdepthE] using hd
      have hdv : cdepth v ≤ fuel := le_trans (le_max_left _ _) hd2
      have hdr : cdepthE rest ≤ fuel := le_trans (le_max_right _ _) hd2
      have hpv : purify fuel hX (allocate h v).1 = some v := by
        refine A5 hX fuel (le_trans F1 hnx) ?_ hdv
        intro b hb
        rw [hagx b (lt_of_lt_of_le hb F1), F2 b hb]
      have hpr : mapElemsO (purify fuel hX) (allocateElems (allocate h v).2 rest).1
          = some rest := F5 hX fuel hnx hagx hdr
      simp only [mapElemsO, hpv, hpr]

end

end HeapModel

namespace HeapModel

open ConfigStore

/--
C6: `get(path, decrypt=true)` on a stored object containing a masked
field returns a deep clone, never the live object — the returned
reference is fresh and distinct from the stored one, and it purifies to
the decrypted tree.  Mutating any field of the returned clone leaves
every store-owned heap cell unchanged, so a subsequent `get(path)` (live
read) and `get(path, true)` (decrypted read) are unaffected by the
mutation.
-/
theorem c6_decrypt_deep_clone
    (S : HStore) (p : List String) (fuel : Nat) (a a2 : Nat)
    (fs0 : List (String × JVal)) (h2 : Heap)
    (hwf : heapWF S.heap)
    (hcb : fieldsBelow S.heap.next S.contents)
    (hraw : S.getRaw p = some (.ref a))
    (hcell : S.heap.lookup a = some (.hobj fs0))
    (hmasked : ∃ kv ∈ fs0, shouldMask S.patterns kv.1 = true)
    (hdec : S.getDec p fuel = some (.ref a2, h2)) :
    S.heap.next ≤ a2 ∧
    (JVal.ref a2) ≠ .ref a ∧
    (∃ dv, S.getDecPure p fuel = some dv ∧ ∃ fuel2, purify fuel2 h2 (.ref a2) = some dv) ∧
    (∀ (f : String) (w : JVal),
      (∀ b, b < S.heap.next → (h2.writeField a2 f w).lookup b = S.heap.lookup b) ∧
      ({ S with heap := h2.writeField a2 f w } : HStore).getRaw p = S.getRaw p ∧
      ({ S with heap := h2.writeField a2 f w } : HStore).getPure p fuel = S.getPure p fuel ∧
      ({ S with heap := h2.writeField a2 f w } : HStore).getDecPure p fuel
        = S.getDecPure p fuel) := by
  rcases hdp : S.getDecPure p fuel with _ | dv
  · rw [HStore.getDec, hdp] at hdec
    cases hdec
  · rw [HStore.getDec, hdp] at hdec
    have hall : allocate S.heap dv = (.ref a2, h2) := by injection hdec
    have ha1 : (allocate S.heap dv).1 = .ref a2 := by rw [hall]
    have ha2 : (allocate S.heap dv).2 = h2 := by rw [hall]
    obtain ⟨A1, A2, A3, A4, A6, A5⟩ := allocate_spec dv S.heap
    have hfresh : S.heap.next ≤ a2 := A6 a2 ha1
    have halive : a < S.heap.next := (hwf a _ hcell).1
    have ha2lt : a2 < h2.next := by
      rw [ha1, ha2] at A3
      exact A3
    have hcl : ∀ b e, b < S.heap.next → S.heap.lookup b = some e →
        entryBelow S.heap.next e := fun b e _ hl => (hwf b e hl).2
    refine ⟨hfresh, ?_, ?_, ?_⟩
    · intro hcontra
      injection hcontra with h3
      omega
    · refine ⟨dv, rfl, cdepth dv, ?_⟩
      rw [← ha2, ← ha1]
      exact A5 (allocate S.heap dv).2 (cdepth dv) le_rfl (fun b _ => rfl) le_rfl
    · intro f w
      have hagree : ∀ b, b < S.heap.next →
          (h2.writeField a2 f w).lookup b = S.heap.lookup b := by
        intro b hb
        rw [lookup_writeField_ne h2 a2 b f w (by omega), ← ha2, A2 b hb]
      have hrawEq : ({ S with heap := h2.writeField a2 f w } : HStore).getRaw p
          = S.getRaw p := by
        show getAtPathH (h2.writeField a2 f w) S.contents p
          = getAtPathH S.heap S.contents p
        exact getAtPathH_agree p _ S.heap S.heap.next S.contents hagree hcl hcb
      have hpureEq : ({ S with heap := h2.writeField a2 f w } : HStore).getPure p fuel
          = S.getPure p fuel := by
        show (match getAtPathH (h2.writeField a2 f w) S.contents p with
          | some v => purify fuel (h2.writeField a2 f w) v
          | none => none) = _
        show _ = (match getAtPathH S.heap S.contents p with
          | some v => purify fuel S.heap v
          | none => none)
        rw [show getAtPathH (h2.writeField a2 f w) S.contents p
            = getAtPathH S.heap S.contents p from hrawEq]
        rw [show getAtPathH S.heap S.contents p = some (.ref a) from hraw]
        exact purify_agree fuel _ S.heap S.heap.next (.ref a) hagree hcl halive
      refine ⟨hagree, hrawEq, hpureEq, ?_⟩
      show (match ({ S with heap := h2.writeField a2 f w } : HStore).getPure p fuel with
        | none => none
        | some pv =>
          match decryptValue S.crypto S.patterns (p.getLastD "") pv with
          | .ok dv2 => some dv2
          | .error _ => none) = _
      rw [hpureEq]
      show S.getDecPure p fuel = _
      exact hdp

end HeapModel

namespace HeapModel

open ConfigStore

/-- A concrete heap for the C6 scenario: one object cell holding a name
and an (encrypted) credit-card number. -/
def demoHeap : Heap :=
  { cells := [(0, .hobj [("name", .prim (.str "bob")),
      ("creditCardNumber", .prim (.str "!ab"))])],
    next := 1 }

/-- The concrete heap store: `owner` references the heap cell. -/
def demoHS : HStore :=
  { crypto := demoCrypto, patterns := carPatterns,
    contents := [("owner", .ref 0)], heap := demoHeap }

/-- The clone heap produced by `get(['owner'], true)` on `demoHS`. -/
def demoCloneHeap : Heap :=
  { cells := (1, .hobj [("name", .prim (.str "bob")),
      ("creditCardNumber", .prim (.str "ab"))]) :: demoHeap.cells,
    next := 2 }

theorem demoHS_wf : heapWF demoHS.heap := by
  intro a e hl
  simp only [demoHS, demoHeap, Heap.lookup, alookup] at hl
  split at hl
  · rename_i h0
    injection hl with hl2
    subst hl2
    subst h0
    refine ⟨Nat.zero_lt_one, ?_⟩
    intro kv hkv
    rcases List.mem_cons.mp hkv with rfl | htail
    · trivial
    · rcases List.mem_cons.mp htail with rfl | htail2
      · trivial
      · cases htail2
  · cases hl

theorem demoHS_contents_below : fieldsBelow demoHS.heap.next demoHS.contents := by
  intro kv hkv
  rcases List.mem_cons.mp hkv with rfl | htail
  · show (0 : Nat) < 1
    omega
  · cases htail

/-- C6 witness: the theorem applied at the concrete `owner` object of the
test suite: the decrypted read yields a fresh clone at address 1 (the
live object sits at address 0), and writing any field of the clone leaves
the store's reads intact. -/
theorem c6_decrypt_deep_clone_witness :
    demoHS.heap.next ≤ 1 ∧
    (JVal.ref 1) ≠ .ref 0 ∧
    (∃ dv, demoHS.getDecPure ["owner"] 2 = some dv ∧
      ∃ fuel2, purify fuel2 demoCloneHeap (.ref 1) = some dv) ∧
    (∀ (f : String) (w : JVal),
      (∀ b, b < demoHS.heap.next →
        (demoCloneHeap.writeField 1 f w).lookup b = demoHS.heap.lookup b) ∧
      ({ demoHS with heap := demoCloneHeap.writeField 1 f w } : HStore).getRaw ["owner"]
        = demoHS.getRaw ["owner"] ∧
      ({ demoHS with heap := demoCloneHeap.writeField 1 f w } : HStore).getPure ["owner"] 2
        = demoHS.getPure ["owner"] 2 ∧
      ({ demoHS with heap := demoCloneHeap.writeField 1 f w } : HStore).getDecPure ["owner"] 2
        = demoHS.getDecPure ["owner"] 2) :=
  c6_decrypt_deep_clone demoHS ["owner"] 2 0 1
    [("name", .prim (.str "bob")), ("creditCardNumber", .prim (.str "!ab"))]
    demoCloneHeap demoHS_wf demoHS_contents_below rfl rfl
    ⟨("creditCardNumber", .prim (.str "!ab")), by simp, rfl⟩ rfl

end HeapModel

namespace ConfigStore

/-- C5 witness: the theorem applied at the test suite's scenario —
existing keys {a, b}, then `setContents({a: 1})`. -/
theorem c5_setContents_recompute_witness :
    ((applyOps (mkStore demoCrypto []) [.set "a" (.num 1), .set "b" (.num 2)]).setContents
      [("a", some (.num 1))]).contents = definedEntries [("a", some (.num 1))] ∧
    ∀ k : String,
      (k ∈ ((applyOps (mkStore demoCrypto []) [.set "a" (.num 1), .set "b" (.num 2)]).setContents
          [("a", some (.num 1))]).updated ↔ ∃ v, (k, some v) ∈ [("a", some (CVal.num 1))]) ∧
      (k ∈ ((applyOps (mkStore demoCrypto []) [.set "a" (.num 1), .set "b" (.num 2)]).setContents
          [("a", some (.num 1))]).deleted ↔
        k ∈ (applyOps (mkStore demoCrypto [])
            [.set "a" (.num 1), .set "b" (.num 2)]).contents.map Prod.fst ∧
        ¬ ∃ v, (k, some v) ∈ [("a", some (CVal.num 1))]) :=
  c5_setContents_recompute
    (applyOps (mkStore demoCrypto []) [.set "a" (.num 1), .set "b" (.num 2)])
    [("a", some (.num 1))]

end ConfigStore
